import Mathlib

/-!
# Verification of the ssbh_lib offset/pointer codec engine

This development models, in a shallow embedding, the core of the `ssbh_lib`
repository:

* the offset/pointer engine and write-time layout engine of
  `ssbh_lib/src/lib.rs` (`Ptr`, `RelPtr64`, `absolute_offset_checked`,
  `round_up`, `write_relative_offset`, `write_rel_ptr_aligned_specialized`,
  `write_ssbh_header`, `write_ssbh_file`, and the derived record/array/string
  writers those rely on),
* the mesh data extraction layer of `ssbh_data/src/mesh_data.rs`
  (`read_attribute_data!`, `read_data!`, `read_influences`,
  `get_attribute_name`),
* the skeleton transform resolver of `ssbh_data/src/skel_data.rs`
  (`calculate_single_bind_transform`).

Machine integers are modelled as `Nat` with explicit `% 2 ^ w` where overflow
matters; `f32` values are carried as their 32-bit patterns (the decoders only
reinterpret bytes, they perform no float arithmetic); fallible operations
return `Option` or an explicit result type carrying the error kind and the
stream cursor.
-/

/-- The memory of a reader or writer: a partial map from absolute byte
position to byte value (a byte is a `Nat`; on-disk bytes are `u8`, so
well-formed memories hold values `< 256`).  `none` models a position that
holds no data (reads there fail, as `read_exact` past the end of a `Cursor`
does). -/
abbrev Mem := Nat → Option Nat

/-- Point update of a writer memory (one byte stored by `Write::write_all`). -/
def mset (m : Mem) (p b : Nat) : Mem := fun q => if q = p then some b else m q

/-- A reader over an in-memory byte list, as `binread::io::Cursor<Vec<u8>>`. -/
def bytesMem (bs : List Nat) : Mem := fun p => bs.get? p

/-- Write `n` bytes of `v` little-endian at `pos`, as the `u8`/`u16`/`u32`/
`u64` `SsbhWrite` impls do; only `v % 2 ^ (8 * n)` is representable. -/
def writeLE (m : Mem) (pos : Nat) : Nat → Nat → Mem
  | 0, _ => m
  | n + 1, v => writeLE (mset m pos (v % 256)) (pos + 1) n (v / 256)

/-- Write a raw byte list at `pos` (`Write::write_all`). -/
def writeBytes (m : Mem) (pos : Nat) : List Nat → Mem
  | [] => m
  | b :: bs => writeBytes (mset m pos b) (pos + 1) bs

/-- Read `n` bytes little-endian at `pos`, as the `BinRead` impls of the
unsigned integer types do; fails if any byte is missing. -/
def readLE (f : Mem) (pos : Nat) : Nat → Option Nat
  | 0 => some 0
  | n + 1 =>
    match f pos with
    | none => none
    | some b =>
      match readLE f (pos + 1) n with
      | none => none
      | some r => some (b + 256 * r)

/-- Read `n` raw bytes at `pos` (used for the 4-byte magics). -/
def readBytesM (f : Mem) (pos : Nat) : Nat → Option (List Nat)
  | 0 => some []
  | n + 1 =>
    match f pos with
    | none => none
    | some b =>
      match readBytesM f (pos + 1) n with
      | none => none
      | some bs => some (b :: bs)

/-- The supported on-disk widths of an absolute pointer offset, mirroring
`impl Offset for u8/u16/u32/u64` in `ssbh_lib/src/lib.rs`. -/
inductive Width where
  | w8 | w16 | w32 | w64
deriving DecidableEq

/-- Byte size of an offset width (`std::mem::size_of::<P>()`). -/
def Width.bytes : Width → Nat
  | .w8 => 1
  | .w16 => 2
  | .w32 => 4
  | .w64 => 8

/-- The type algebra of the SSBH container formats: fixed-size unsigned
integers (floats are carried as their bit patterns), absolute pointers of a
given width (`Ptr<P, T>`), relative 64-bit pointers (`RelPtr64<T>`),
length-prefixed sequences (`SsbhArray<T>`/`SsbhByteBuffer`), null-terminated
strings behind a pointer (`SsbhString`), and records of fields (the structs
the derive macros process).  The per-format record definitions of
`ssbh_lib/src/formats` are compositions of these constructors. -/
inductive STy where
  | prim (w : Width)
  | ptr (w : Width) (t : STy)
  | relPtr (t : STy)
  | seq (t : STy)
  | str
  | record (fields : List STy)

/-- Values of the container types.  A pointer holds `Option` of its pointee
(`None` is the null offset), a sequence holds its ordered element list, a
string holds `Option` of its byte content (absent pointer vs. possibly empty
string), a record holds its field values. -/
inductive SVal where
  | prim (w : Width) (v : Nat)
  | ptr (w : Width) (v : Option SVal)
  | relPtr (v : Option SVal)
  | seq (elems : List SVal)
  | str (s : Option (List Nat))
  | record (fields : List SVal)

mutual

/-- The fixed (in-record) byte size of each type: the width of the offset
field for pointers and strings, offset plus count for sequences, the sum of
the field sizes for records.  This is `size_in_bytes` on the type level. -/
def STy.fixedSize : STy → Nat
  | .prim w => w.bytes
  | .ptr w _ => w.bytes
  | .relPtr _ => 8
  | .seq _ => 16
  | .str => 8
  | .record fs => styListSize fs

/-- Sum of the fixed sizes of a list of field types. -/
def styListSize : List STy → Nat
  | [] => 0
  | t :: ts => t.fixedSize + styListSize ts

end

mutual

/-- `size_in_bytes` on the value level (the Rust method is defined on values;
for records it adds each field's size). -/
def SVal.sizeB : SVal → Nat
  | .prim w _ => w.bytes
  | .ptr w _ => w.bytes
  | .relPtr _ => 8
  | .seq _ => 16
  | .str _ => 8
  | .record fs => svalListSize fs

/-- Sum of the value sizes of a list (the `size_in_bytes` of a `Vec<T>`,
used by the array writer's reservation step). -/
def svalListSize : List SVal → Nat
  | [] => 0
  | v :: vs => v.sizeB + svalListSize vs

end

/-- `alignment_in_bytes` per type.  Modelled from the spec: the primitive
wrappers align to their own size, pointers and records to 8, strings to 4
("Round `data_cursor` up to the pointee type's required alignment"); only
positivity of the alignment matters for the theorems below. -/
def STy.align : STy → Nat
  | .prim w => w.bytes
  | .ptr _ _ => 8
  | .relPtr _ => 8
  | .seq _ => 8
  | .str => 4
  | .record _ => 8

/-- `round_up` from `ssbh_lib/src/lib.rs`: next multiple of `n`. -/
def roundUp (value n : Nat) : Nat := ((value + n - 1) / n) * n

/-- Decode error kinds: `overflow pos` is the `AssertFail { pos, .. }` result
of `absolute_offset_checked`, `eof` a truncated read, `badMagic` a magic
mismatch at a dispatch point. -/
inductive DErr where
  | overflow (pos : Nat)
  | eof
  | badMagic
deriving DecidableEq, Repr

/-- Result of a decode step: value or error, in both cases together with the
stream cursor after the step (`binread` leaves the reader wherever the failing
or succeeding read put it). -/
inductive DRes (α : Type) where
  | ok (v : α) (pos : Nat)
  | err (e : DErr) (pos : Nat)
deriving DecidableEq, Repr

/-- `absolute_offset_checked` from `ssbh_lib/src/lib.rs`: checked `u64`
addition of a field position and a relative offset; `none` is the overflow
error case. -/
def absoluteOffsetChecked (position relativeOffset : Nat) : Option Nat :=
  if position + relativeOffset < 2 ^ 64 then some (position + relativeOffset) else none

/-- Scan a null-terminated byte string at `pos`.  Modelled from the spec:
`StringRecord` is a "null-terminated byte sequence behind a pointer" (the
`CString`/`SsbhString` reader of the repository's `strings.rs`, which is not
among the provided sources).  `fuel` bounds the scan; every caller passes a
bound that exceeds any position holding data. -/
def scanCString (f : Mem) : Nat → Nat → DRes (List Nat)
  | 0, pos => .err .eof pos
  | fuel + 1, pos =>
    match f pos with
    | none => .err .eof pos
    | some 0 => .ok [] (pos + 1)
    | some b =>
      match scanCString f fuel (pos + 1) with
      | .ok s p => .ok (b :: s) p
      | .err e p => .err e p


/-- Sequencing of decode steps: `ok` feeds the value and cursor to the
continuation, an error propagates unchanged (the `?` operator of the Rust
readers). -/
def DRes.bind {α β : Type} : DRes α → (α → Nat → DRes β) → DRes β
  | .ok v p, f => f v p
  | .err e p, _ => .err e p

/-- Read an `n`-byte little-endian unsigned integer as a decode step: the
error is `eof` at the field position, success advances the cursor past the
field. -/
def readNum (f : Mem) (pos n : Nat) : DRes Nat :=
  match readLE f pos n with
  | none => .err .eof pos
  | some v => .ok v (pos + n)

/-- Decode `n` consecutive values with the element decoder `d`, threading the
cursor (the element loop of the sequence reader). -/
def decodeListWith (d : Nat → DRes SVal) : Nat → Nat → DRes (List SVal)
  | 0, pos => .ok [] pos
  | n + 1, pos =>
    (d pos).bind fun v p =>
      (decodeListWith d n p).bind fun vs p' => .ok (v :: vs) p'

mutual

/-- The type-directed decoder.  Each case mirrors the corresponding
`BinRead::read_options` impl:

* `prim`: a little-endian fixed-width read;
* `ptr` (`Ptr::read_options`): read the offset; zero yields the null value
  with the cursor just past the field; otherwise seek to the absolute offset,
  read the pointee there, and restore the cursor to just after the offset
  field (a failing pointee read propagates its error and cursor);
* `relPtr` (`RelPtr64::read_options`): as `ptr`, but the target is
  `absolute_offset_checked(field_position, offset)` and its overflow is a
  recoverable error reported at the field position, with the cursor still
  just after the offset field;
* `seq`: offset-to-first-element plus `u64` count, then the elements are read
  at the target (modelled from the spec: "`Sequence<T>`: on disk,
  `(AbsolutePointer64 to first element, u64 count)`"; `arrays.rs` is not among
  the provided sources);
* `str`: a pointer to a null-terminated byte string (modelled from the spec as
  for `seq`; `F` is the scan bound);
* `record`: the fields in order (the derived `BinRead` impl of a struct). -/
def decodeTy (F : Nat) (f : Mem) : STy → Nat → DRes SVal
  | .prim w, pos =>
    (readNum f pos w.bytes).bind fun v p => .ok (.prim w v) p
  | .ptr w t, pos =>
    (readNum f pos w.bytes).bind fun o p =>
      if o = 0 then .ok (.ptr w none) p
      else (decodeTy F f t o).bind fun v _ => .ok (.ptr w (some v)) p
  | .relPtr t, pos =>
    (readNum f pos 8).bind fun o p =>
      if o = 0 then .ok (.relPtr none) p
      else
        match absoluteOffsetChecked pos o with
        | none => .err (.overflow pos) p
        | some sp => (decodeTy F f t sp).bind fun v _ => .ok (.relPtr (some v)) p
  | .seq t, pos =>
    (readNum f pos 8).bind fun o p1 =>
      (readNum f p1 8).bind fun n p2 =>
        (decodeListWith (fun q => decodeTy F f t q) n o).bind fun vs _ => .ok (.seq vs) p2
  | .str, pos =>
    (readNum f pos 8).bind fun o p =>
      if o = 0 then .ok (.str none) p
      else
        match absoluteOffsetChecked pos o with
        | none => .err (.overflow pos) p
        | some sp => (scanCString f F sp).bind fun s _ => .ok (.str (some s)) p
  | .record ts, pos =>
    (decodeFieldTys F f ts pos).bind fun vs p => .ok (.record vs) p
termination_by t _ => sizeOf t
decreasing_by all_goals (simp_wf; try omega)

/-- Decode the fields of a record in order, threading the cursor. -/
def decodeFieldTys (F : Nat) (f : Mem) : List STy → Nat → DRes (List SVal)
  | [], pos => .ok [] pos
  | t :: ts, pos =>
    (decodeTy F f t pos).bind fun v p =>
      (decodeFieldTys F f ts p).bind fun vs p' => .ok (v :: vs) p'
termination_by ts _ => sizeOf ts
decreasing_by all_goals (simp_wf; try omega)

end

-- A sanity check that the decoder computes: the `read_relptr` unit test of
-- `ssbh_lib/src/lib.rs` (`hex!("09000000 00000000 05070000")`).
example :
    decodeTy 99 (bytesMem [9, 0, 0, 0, 0, 0, 0, 0, 5, 7, 0, 0]) (.relPtr (.prim .w8)) 0 =
      .ok (.relPtr (some (.prim .w8 7))) 8 := by
  have h1 : readLE (bytesMem [9, 0, 0, 0, 0, 0, 0, 0, 5, 7, 0, 0]) 0 8 = some 9 := by rfl
  have h2 : readLE (bytesMem [9, 0, 0, 0, 0, 0, 0, 0, 5, 7, 0, 0]) 9 1 = some 7 := by rfl
  simp [decodeTy, readNum, h1, h2, DRes.bind, absoluteOffsetChecked, Width.bytes]

/-- The writer state threaded through `ssbh_write`: the output memory, the
current write position (the `Seek` cursor) and the shared data pointer
(`data_ptr`, the "next free byte" cursor of the layout engine). -/
structure WSt where
  mem : Mem
  pos : Nat
  dataPtr : Nat

/-- The data-pointer update after a pointee write: "point the data pointer
past the current write", rounding up to the pointee alignment, but only when
the write moved past it (`if current_pos > *data_ptr { *data_ptr =
round_up(current_pos, alignment) }`). -/
def postD (a : Nat) (st2 : WSt) : Nat :=
  if st2.pos > st2.dataPtr then roundUp st2.pos a else st2.dataPtr

/-- Sequentially encode a list of values with the element encoder `enc`
(the element loop of the array writer). -/
def encodeListWith (enc : SVal → WSt → Option WSt) : List SVal → WSt → Option WSt
  | [], st => some st
  | v :: vs, st => (enc v st).bind (encodeListWith enc vs)

mutual

/-- The type-directed encoder.  Each case mirrors the corresponding
`SsbhWrite::ssbh_write` impl; every impl begins by raising `data_ptr` to at
least `current_pos + self.size_in_bytes()` ("the data pointer must point past
the containing type").

* `prim`: raise, then a little-endian fixed-width write;
* `ptr` (`Ptr::ssbh_write` in `ssbh_lib/src/lib.rs`): raise by the pointer's
  own width; a null pointee writes the zero offset of that width; otherwise
  round `data_ptr` up to the pointee's alignment, convert it to the offset
  width (`P::try_from`, failure for an unrepresentable offset), write the
  offset, seek to `data_ptr`, write the pointee there, adjust `data_ptr` past
  the pointee (`postD`), and seek back to just after the offset field;
* `relPtr` (`RelPtr64::ssbh_write` with `write_rel_ptr_aligned_specialized`):
  as `ptr` with width 8, except that the stored offset is
  `data_ptr - current_pos` (`write_relative_offset`);
* `seq`: the array writer (modelled from the spec: the on-disk shape is
  `(AbsolutePointer64 to first element, u64 count)` and "sequence writing
  follows the identical pattern for its data pointer, followed by inline
  element writing at the pointed-to location"; `arrays.rs` is not among the
  provided sources).  The element vector's own write first raises `data_ptr`
  past the whole element block (its `size_in_bytes`), which is what keeps
  element pointees from overlapping later elements;
* `str`: the string writer (modelled from the spec: a pointer to the
  null-terminated bytes, placed at the aligned data position);
* `record`: raise past the whole record, then write the fields in order (the
  derived `SsbhWrite` impl of a struct).

`none` models an `Err` of the Rust writer (an offset that does not fit its
width) and, for a value whose shape disagrees with the type, a call that the
typed Rust API cannot express. -/
def encodeTy : STy → SVal → WSt → Option WSt
  | .prim w, .prim w' v, st =>
    if w = w' then
      some ⟨writeLE st.mem st.pos w.bytes v, st.pos + w.bytes,
        Nat.max st.dataPtr (st.pos + w.bytes)⟩
    else none
  | .ptr w t, .ptr w' ov, st =>
    if w = w' then
      let d := Nat.max st.dataPtr (st.pos + w.bytes)
      match ov with
      | none => some ⟨writeLE st.mem st.pos w.bytes 0, st.pos + w.bytes, d⟩
      | some v =>
        let d2 := roundUp d t.align
        if d2 < 2 ^ (8 * w.bytes) then
          (encodeTy t v ⟨writeLE st.mem st.pos w.bytes d2, d2, d2⟩).map fun st2 =>
            ⟨st2.mem, st.pos + w.bytes, postD t.align st2⟩
        else none
    else none
  | .relPtr t, .relPtr ov, st =>
    let d := Nat.max st.dataPtr (st.pos + 8)
    match ov with
    | none => some ⟨writeLE st.mem st.pos 8 0, st.pos + 8, d⟩
    | some v =>
      let d2 := roundUp d t.align
      (encodeTy t v ⟨writeLE st.mem st.pos 8 (d2 - st.pos), d2, d2⟩).map fun st2 =>
        ⟨st2.mem, st.pos + 8, postD t.align st2⟩
  | .seq t, .seq es, st =>
    let d := Nat.max st.dataPtr (st.pos + 16)
    let d2 := roundUp d t.align
    let m2 := writeLE (writeLE st.mem st.pos 8 d2) (st.pos + 8) 8 es.length
    (encodeListWith (fun v st' => encodeTy t v st') es
        ⟨m2, d2, Nat.max d2 (d2 + svalListSize es)⟩).map fun st2 =>
      ⟨st2.mem, st.pos + 16, postD t.align st2⟩
  | .str, .str os, st =>
    let d := Nat.max st.dataPtr (st.pos + 8)
    match os with
    | none => some ⟨writeLE st.mem st.pos 8 0, st.pos + 8, d⟩
    | some s =>
      let d2 := roundUp d STy.str.align
      let m2 := writeBytes (writeLE st.mem st.pos 8 (d2 - st.pos)) d2 (s ++ [0])
      some ⟨m2, st.pos + 8, postD STy.str.align ⟨m2, d2 + (s.length + 1), d2⟩⟩
  | .record ts, .record vs, st =>
    encodeFieldList ts vs ⟨st.mem, st.pos, Nat.max st.dataPtr (st.pos + svalListSize vs)⟩
  | _, _, _ => none
termination_by t _ _ => sizeOf t
decreasing_by all_goals (simp_wf; try omega)

/-- Encode the fields of a record in order (the field sequence emitted by the
`SsbhWrite` derive). -/
def encodeFieldList : List STy → List SVal → WSt → Option WSt
  | [], [], st => some st
  | t :: ts, v :: vs, st => (encodeTy t v st).bind (encodeFieldList ts vs)
  | _, _, _ => none
termination_by ts _ _ => sizeOf ts
decreasing_by all_goals (simp_wf; try omega)

end

/-- The four magic bytes `b"HBSS"`. -/
def hbssMagic : List Nat := [72, 66, 83, 83]

/-- A memory with no data written yet (a fresh `Cursor::new(Vec::new())`). -/
def emptyMem : Mem := fun _ => none

/-- `write_ssbh_header` followed by `write_ssbh_file` from
`ssbh_lib/src/lib.rs`: the hardcoded header (`b"HBSS"`, `64u64`, `0u32`, the
4-byte format magic), then `data_ptr` is initialised to the stream position
(20) plus `data.size_in_bytes()` ("point past the struct") and the record is
written. -/
def encodeSsbhFile (magic : List Nat) (t : STy) (v : SVal) : Option WSt :=
  let m0 := writeBytes emptyMem 0 hbssMagic
  let m1 := writeLE m0 4 8 64
  let m2 := writeLE m1 12 4 0
  let m3 := writeBytes m2 16 magic
  encodeTy t v ⟨m3, 20, 20 + v.sizeB⟩

/-- The whole-file reader (`Ssbh::read` / `ssbh_read_write_impl`): match the
`b"HBSS"` magic, align to 0x10, match the format magic of the expected type,
then decode the record there.  `F` is the string-scan bound passed down to
`decodeTy`. -/
def decodeSsbhFile (F : Nat) (f : Mem) (magic : List Nat) (t : STy) : DRes SVal :=
  match readBytesM f 0 4 with
  | none => .err .eof 0
  | some m =>
    if m = hbssMagic then
      match readBytesM f 16 4 with
      | none => .err .eof 16
      | some m2 =>
        if m2 = magic then decodeTy F f t 20 else .err .badMagic 16
    else .err .badMagic 0

-- Sanity checks against the unit tests of `ssbh_lib/src/lib.rs`.

-- `write_ptr16`: `Ptr16::<u8>::new(5u8)` from `data_ptr = 0` writes
-- `hex!("0200 05")` and leaves `data_ptr = 3`.
example :
    (encodeTy (.ptr .w16 (.prim .w8)) (.ptr .w16 (some (.prim .w8 5))) ⟨emptyMem, 0, 0⟩).map
        (fun st => (st.pos, st.dataPtr, st.mem 0, st.mem 1, st.mem 2)) =
      some (2, 3, some 2, some 0, some 5) := by
  simp [encodeTy, roundUp, postD, STy.align, Width.bytes, writeLE, mset, emptyMem]

-- `write_null_rel_ptr`: `RelPtr64::<u32>(None)` from `data_ptr = 0` writes
-- eight zero bytes and leaves `data_ptr = 8`.
example :
    (encodeTy (.relPtr (.prim .w32)) (.relPtr none) ⟨emptyMem, 0, 0⟩).map
        (fun st => (st.pos, st.dataPtr, st.mem 0, st.mem 7)) =
      some (8, 8, some 0, some 0) := by
  simp [encodeTy, Width.bytes, writeLE, mset, emptyMem]

-- `write_nested_rel_ptr_depth2`: `RelPtr64::new(RelPtr64::new(7u32))` from
-- `data_ptr = 0` writes offsets 8 and 8 and the value at 16, `data_ptr = 20`.
example :
    (encodeTy (.relPtr (.relPtr (.prim .w32)))
        (.relPtr (some (.relPtr (some (.prim .w32 7))))) ⟨emptyMem, 0, 0⟩).map
        (fun st => (st.pos, st.dataPtr, st.mem 0, st.mem 8, st.mem 16)) =
      some (8, 20, some 8, some 8, some 7) := by
  simp [encodeTy, roundUp, postD, STy.align, Width.bytes, writeLE, mset, emptyMem]

/-! ### Basic lemmas about the byte-level primitives -/

theorem mset_same (m : Mem) (p b : Nat) : mset m p b p = some b := by
  simp [mset]

theorem mset_other (m : Mem) (p b q : Nat) (h : q ≠ p) : mset m p b q = m q := by
  simp [mset, h]

/-- `writeLE` only touches `[pos, pos + n)`. -/
theorem writeLE_outside (n : Nat) :
    ∀ m pos v q, q < pos ∨ pos + n ≤ q → writeLE m pos n v q = m q := by
  induction n with
  | zero => intro m pos v q _; rfl
  | succ k ih =>
    intro m pos v q hq
    show writeLE (mset m pos (v % 256)) (pos + 1) k (v / 256) q = m q
    rw [ih _ _ _ _ (by omega), mset_other _ _ _ _ (by omega)]

/-- The byte stored by `writeLE` at `pos + i`. -/
theorem writeLE_get (n : Nat) :
    ∀ m pos v i, i < n → writeLE m pos n v (pos + i) = some (v / 256 ^ i % 256) := by
  induction n with
  | zero => omega
  | succ k ih =>
    intro m pos v i hi
    show writeLE (mset m pos (v % 256)) (pos + 1) k (v / 256) (pos + i) = _
    match i with
    | 0 =>
      rw [writeLE_outside _ _ _ _ _ (by omega)]
      simpa using mset_same m pos (v % 256)
    | j + 1 =>
      have : pos + (j + 1) = (pos + 1) + j := by omega
      rw [this, ih _ _ _ _ (by omega), Nat.div_div_eq_div_mul, pow_succ, mul_comm (256 ^ j) 256]

/-- `writeBytes` only touches `[pos, pos + length)`. -/
theorem writeBytes_outside (bs : List Nat) :
    ∀ m pos q, q < pos ∨ pos + bs.length ≤ q → writeBytes m pos bs q = m q := by
  induction bs with
  | nil => intro m pos q _; rfl
  | cons b bs ih =>
    intro m pos q hq
    show writeBytes (mset m pos b) (pos + 1) bs q = m q
    rw [ih _ _ _ (by simp at hq; omega), mset_other _ _ _ _ (by simp at hq; omega)]

/-- The byte stored by `writeBytes` at `pos + i`. -/
theorem writeBytes_get (bs : List Nat) :
    ∀ m pos i, i < bs.length → writeBytes m pos bs (pos + i) = bs.get? i := by
  induction bs with
  | nil => intro m pos i hi; simp at hi
  | cons b bs ih =>
    intro m pos i hi
    show writeBytes (mset m pos b) (pos + 1) bs (pos + i) = _
    match i with
    | 0 =>
      rw [writeBytes_outside _ _ _ _ (by omega)]
      simpa using mset_same m pos b
    | j + 1 =>
      have : pos + (j + 1) = (pos + 1) + j := by omega
      rw [this, ih _ _ _ (by simp at hi; omega)]
      rfl

/-- `readLE` only looks at `[pos, pos + n)`. -/
theorem readLE_agree (n : Nat) :
    ∀ f g pos, (∀ i, i < n → f (pos + i) = g (pos + i)) → readLE f pos n = readLE g pos n := by
  induction n with
  | zero => intro _ _ _ _; rfl
  | succ k ih =>
    intro f g pos h
    have h0 : f pos = g pos := by simpa using h 0 (by omega)
    have h1 : readLE f (pos + 1) k = readLE g (pos + 1) k :=
      ih f g (pos + 1) (fun i hi => by
        have := h (i + 1) (by omega)
        simpa [Nat.add_assoc, Nat.add_comm 1 i] using this)
    simp only [readLE]
    rw [h0, h1]

/-- Reading back `n` little-endian bytes just written returns `v % 256 ^ n`. -/
theorem readLE_writeLE (n : Nat) :
    ∀ m pos v, readLE (writeLE m pos n v) pos n = some (v % 256 ^ n) := by
  induction n with
  | zero => intro m pos v; simp [readLE, writeLE, Nat.mod_one]
  | succ k ih =>
    intro m pos v
    have h0 : writeLE m pos (k + 1) v pos = some (v % 256) := by
      simpa using writeLE_get (k + 1) m pos v 0 (by omega)
    have h1 : readLE (writeLE m pos (k + 1) v) (pos + 1) k = some (v / 256 % 256 ^ k) := by
      show readLE (writeLE (mset m pos (v % 256)) (pos + 1) k (v / 256)) (pos + 1) k = _
      exact ih _ _ _
    have h2 : v % 256 + 256 * (v / 256 % 256 ^ k) = v % 256 ^ (k + 1) := by
      rw [pow_succ, mul_comm (256 ^ k) 256, Nat.mod_mul]
    simp only [readLE]
    rw [h0, h1]
    simp [h2]

/-- Reading a field whose bytes are all zero yields zero. -/
theorem readLE_zeros (n : Nat) :
    ∀ f pos, (∀ i, i < n → f (pos + i) = some 0) → readLE f pos n = some 0 := by
  induction n with
  | zero => intro _ _ _; rfl
  | succ k ih =>
    intro f pos h
    have h0 : f pos = some 0 := by simpa using h 0 (by omega)
    have h1 : readLE f (pos + 1) k = some 0 :=
      ih f (pos + 1) (fun i hi => by
        have := h (i + 1) (by omega)
        simpa [Nat.add_assoc, Nat.add_comm 1 i] using this)
    simp only [readLE]
    rw [h0, h1]

/-- A memory holding only genuine `u8` values. -/
def MemWf (f : Mem) : Prop := ∀ p b, f p = some b → b < 256

/-- Little-endian reads from a `u8` memory are bounded by `256 ^ n`. -/
theorem readLE_lt (n : Nat) :
    ∀ f pos v, MemWf f → readLE f pos n = some v → v < 256 ^ n := by
  induction n with
  | zero =>
    intro f pos v _ h
    simp [readLE] at h
    omega
  | succ k ih =>
    intro f pos v hwf h
    rw [readLE] at h
    revert h
    cases hb : f pos with
    | none => intro h; cases h
    | some b =>
      cases hr : readLE f (pos + 1) k with
      | none => intro h; cases h
      | some r =>
        intro h
        have hb256 : b < 256 := hwf _ _ hb
        have hrk : r < 256 ^ k := ih _ _ _ hwf hr
        have hv : v = b + 256 * r := by cases h; rfl
        have h3 : 256 * (r + 1) ≤ 256 * 256 ^ k := Nat.mul_le_mul_left 256 hrk
        subst hv
        rw [pow_succ, mul_comm (256 ^ k) 256]
        calc b + 256 * r < 256 * (r + 1) := by omega
          _ ≤ 256 * 256 ^ k := h3

/-- `round_up` does not decrease its argument (positive alignment). -/
theorem roundUp_ge (v n : Nat) (hn : 0 < n) : v ≤ roundUp v n := by
  unfold roundUp
  have h := Nat.div_add_mod (v + n - 1) n
  have hr : (v + n - 1) % n < n := Nat.mod_lt _ hn
  have hc : n * ((v + n - 1) / n) = (v + n - 1) / n * n := Nat.mul_comm _ _
  omega

/-- Every width is at least one byte. -/
theorem widthBytes_pos (w : Width) : 0 < w.bytes := by
  cases w <;> simp [Width.bytes]

/-- Every alignment used by the engine is positive. -/
theorem align_pos (t : STy) : 0 < t.align := by
  cases t with
  | prim w => cases w <;> simp [STy.align, Width.bytes]
  | ptr w t => simp [STy.align]
  | relPtr t => simp [STy.align]
  | seq t => simp [STy.align]
  | str => simp [STy.align]
  | record fs => simp [STy.align]

/-! ### Inversion lemmas for the decode and encode combinators -/

theorem DRes.bind_ok {α β : Type} (v : α) (p : Nat) (g : α → Nat → DRes β) :
    (DRes.ok v p).bind g = g v p := rfl

theorem DRes.bind_err {α β : Type} (e : DErr) (p : Nat) (g : α → Nat → DRes β) :
    (DRes.err e p : DRes α).bind g = .err e p := rfl

theorem DRes.bind_eq_ok {α β : Type} {x : DRes α} {g : α → Nat → DRes β} {v : β} {p : Nat} :
    x.bind g = .ok v p ↔ ∃ u q, x = .ok u q ∧ g u q = .ok v p := by
  cases x with
  | ok u q =>
    simp only [DRes.bind, DRes.ok.injEq]
    constructor
    · intro h
      exact ⟨u, q, ⟨rfl, rfl⟩, h⟩
    · intro ⟨u1, q1, ⟨h1, h2⟩, h3⟩
      subst h1
      subst h2
      exact h3
  | err e q => simp [DRes.bind]

theorem readNum_eq_ok {f : Mem} {pos n v p : Nat} :
    readNum f pos n = .ok v p ↔ readLE f pos n = some v ∧ p = pos + n := by
  unfold readNum
  cases h : readLE f pos n with
  | none => simp
  | some u =>
    simp only [DRes.ok.injEq, Option.some.injEq]
    constructor
    · intro ⟨h1, h2⟩
      exact ⟨by omega, by omega⟩
    · intro ⟨h1, h2⟩
      exact ⟨by omega, by omega⟩

/-! ### C2: relative-pointer overflow -/

/-- The byte stream of the `read_relptr_offset_overflow` unit test:
`hex!("00000000 FFFFFFFF FFFFFFFF 05070000")`. -/
def overflowTestBytes : List Nat :=
  [0, 0, 0, 0, 255, 255, 255, 255, 255, 255, 255, 255, 5, 7, 0, 0]

/-- C2.  Decoding a `RelPtr64` whose non-zero offset added to the field's
starting position overflows a `u64` returns the overflow decode error (the
checked addition of `absolute_offset_checked` turns the would-be panic into
an `Err` result): at position 4 with offset bytes `FF FF FF FF FF FF FF FF`
the result is the overflow error reported at position 4, and the stream
cursor afterwards sits at 12, immediately after the 8-byte offset field, so
the next field (the byte `0x05`) reads correctly. -/
theorem c2_relptr_overflow (F : Nat) :
    decodeTy F (bytesMem overflowTestBytes) (.relPtr (.prim .w8)) 4 =
        .err (.overflow 4) 12 ∧
      decodeTy F (bytesMem overflowTestBytes) (.prim .w8) 12 = .ok (.prim .w8 5) 13 := by
  have h1 : readNum (bytesMem overflowTestBytes) 4 8 = .ok 18446744073709551615 12 := by rfl
  have h2 : readNum (bytesMem overflowTestBytes) 12 Width.w8.bytes = .ok 5 13 := by rfl
  constructor
  · simp only [decodeTy]
    rw [h1, DRes.bind_ok]
    norm_num [absoluteOffsetChecked]
  · simp only [decodeTy]
    rw [h2, DRes.bind_ok]

/-! ### C3: null-pointer identity -/

/-- C3.  For every supported pointer width (8, 16, 32, 64 bits for `Ptr`,
64 bits for `RelPtr64`): encoding an absent pointer writes an all-zero offset
field of exactly that width and advances the write position past the field
only, leaving every other memory position untouched; and decoding an offset
field whose bytes are all zero yields the absent value with the cursor
advanced past the field only, no pointee being read. -/
theorem c3_null_pointer_identity (w : Width) (t : STy) (st : WSt) :
    (∃ st', encodeTy (.ptr w t) (.ptr w none) st = some st' ∧
        st'.pos = st.pos + w.bytes ∧
        (∀ i, i < w.bytes → st'.mem (st.pos + i) = some 0) ∧
        (∀ p, p < st.pos ∨ st.pos + w.bytes ≤ p → st'.mem p = st.mem p)) ∧
      (∃ st', encodeTy (.relPtr t) (.relPtr none) st = some st' ∧
        st'.pos = st.pos + 8 ∧
        (∀ i, i < 8 → st'.mem (st.pos + i) = some 0) ∧
        (∀ p, p < st.pos ∨ st.pos + 8 ≤ p → st'.mem p = st.mem p)) ∧
      (∀ F f pos, (∀ i, i < w.bytes → f (pos + i) = some 0) →
        decodeTy F f (.ptr w t) pos = .ok (.ptr w none) (pos + w.bytes)) ∧
      (∀ F f pos, (∀ i, i < 8 → f (pos + i) = some 0) →
        decodeTy F f (.relPtr t) pos = .ok (.relPtr none) (pos + 8)) := by
  refine ⟨⟨⟨writeLE st.mem st.pos w.bytes 0, st.pos + w.bytes,
      Nat.max st.dataPtr (st.pos + w.bytes)⟩, ?_, rfl, ?_, ?_⟩,
    ⟨⟨writeLE st.mem st.pos 8 0, st.pos + 8, Nat.max st.dataPtr (st.pos + 8)⟩, ?_, rfl, ?_, ?_⟩,
    ?_, ?_⟩
  · simp [encodeTy]
  · intro i hi
    simpa using writeLE_get w.bytes st.mem st.pos 0 i hi
  · intro p hp
    exact writeLE_outside _ _ _ _ _ hp
  · simp [encodeTy]
  · intro i hi
    simpa using writeLE_get 8 st.mem st.pos 0 i hi
  · intro p hp
    exact writeLE_outside _ _ _ _ _ hp
  · intro F f pos h
    have hr : readNum f pos w.bytes = .ok 0 (pos + w.bytes) := by
      simp [readNum, readLE_zeros _ _ _ h]
    simp only [decodeTy]
    rw [hr, DRes.bind_ok]
    simp
  · intro F f pos h
    have hr : readNum f pos 8 = .ok 0 (pos + 8) := by
      simp [readNum, readLE_zeros _ _ _ h]
    simp only [decodeTy]
    rw [hr, DRes.bind_ok]
    simp

/-- Witness for C3 at width 16, pointee type `u8`, a fresh writer and an
all-zero reader. -/
theorem c3_null_pointer_identity_witness :
    (∃ st', encodeTy (.ptr .w16 (.prim .w8)) (.ptr .w16 none) ⟨emptyMem, 0, 0⟩ = some st' ∧
        st'.pos = 0 + Width.w16.bytes ∧
        (∀ i, i < Width.w16.bytes → st'.mem (0 + i) = some 0) ∧
        (∀ p, p < 0 ∨ 0 + Width.w16.bytes ≤ p → st'.mem p = emptyMem p)) ∧
      decodeTy 0 (fun _ => some 0) (.ptr .w16 (.prim .w8)) 3 =
        .ok (.ptr .w16 none) (3 + Width.w16.bytes) ∧
      decodeTy 0 (fun _ => some 0) (.relPtr (.prim .w8)) 3 = .ok (.relPtr none) (3 + 8) :=
  ⟨(c3_null_pointer_identity .w16 (.prim .w8) ⟨emptyMem, 0, 0⟩).1,
    (c3_null_pointer_identity .w16 (.prim .w8) ⟨emptyMem, 0, 0⟩).2.2.1 0 (fun _ => some 0) 3
      (fun _ _ => rfl),
    (c3_null_pointer_identity .w16 (.prim .w8) ⟨emptyMem, 0, 0⟩).2.2.2 0 (fun _ => some 0) 3
      (fun _ _ => rfl)⟩

/-! ### Monotonicity of the data cursor -/

/-- The post-pointee adjustment never decreases the data pointer. -/
theorem postD_ge (a : Nat) (st2 : WSt) (ha : 0 < a) : st2.dataPtr ≤ postD a st2 := by
  unfold postD
  split
  · exact le_trans (by omega) (roundUp_ge _ _ ha)
  · exact le_refl _

/-- `encodeListWith` preserves any dataPtr monotonicity of its element
encoder. -/
theorem encodeListWith_mono (enc : SVal → WSt → Option WSt)
    (h : ∀ v st st', enc v st = some st' → st.dataPtr ≤ st'.dataPtr) :
    ∀ vs st st', encodeListWith enc vs st = some st' → st.dataPtr ≤ st'.dataPtr := by
  intro vs
  induction vs with
  | nil =>
    intro st st' he
    cases he
    exact le_refl _
  | cons v vs ih =>
    intro st st' he
    simp only [encodeListWith] at he
    rw [Option.bind_eq_some] at he
    obtain ⟨st1, h1, h2⟩ := he
    exact le_trans (h v st st1 h1) (ih st1 st' h2)

/-- `encodeFieldList` preserves dataPtr monotonicity of the field encoders. -/
theorem encodeFieldList_mono :
    ∀ ts : List STy,
      (∀ t v st st', t ∈ ts → encodeTy t v st = some st' → st.dataPtr ≤ st'.dataPtr) →
      ∀ vs st st', encodeFieldList ts vs st = some st' → st.dataPtr ≤ st'.dataPtr := by
  intro ts
  induction ts with
  | nil =>
    intro _ vs st st' he
    cases vs with
    | nil =>
      simp only [encodeFieldList] at he
      cases he
      exact le_refl _
    | cons v vs => simp [encodeFieldList] at he
  | cons t ts ih =>
    intro h vs st st' he
    cases vs with
    | nil => simp [encodeFieldList] at he
    | cons v vs =>
      simp only [encodeFieldList] at he
      rw [Option.bind_eq_some] at he
      obtain ⟨st1, h1, h2⟩ := he
      refine le_trans (h t v st st1 (by simp) h1) (ih ?_ vs st1 st' h2)
      intro t' v' st2 st2' ht' he'
      exact h t' v' st2 st2' (by simp [ht']) he'

/-- Every single `ssbh_write` call leaves the shared data pointer unchanged
or increases it (proved for all inputs, well-formed or not). -/
theorem encodeTy_mono :
    ∀ N t v st st', sizeOf (t : STy) ≤ N → encodeTy t v st = some st' →
      st.dataPtr ≤ st'.dataPtr := by
  intro N
  induction N with
  | zero =>
    intro t v st st' hN he
    have : 0 < sizeOf t := by cases t <;> simp_arith
    omega
  | succ N ih =>
    intro t v st st' hN he
    cases t with
    | prim w =>
      cases v with
      | prim w' v =>
        simp only [encodeTy] at he
        split at he
        · cases he
          exact le_max_left _ _
        · simp at he
      | ptr w' ov => simp [encodeTy] at he
      | relPtr ov => simp [encodeTy] at he
      | seq es => simp [encodeTy] at he
      | str s => simp [encodeTy] at he
      | record fs => simp [encodeTy] at he
    | ptr w t =>
      have hsub : sizeOf t ≤ N := by simp at hN; omega
      cases v with
      | prim w' v => simp [encodeTy] at he
      | ptr w' ov =>
        cases ov with
        | none =>
          simp only [encodeTy] at he
          split at he
          · cases he
            exact le_max_left _ _
          · simp at he
        | some v =>
          simp only [encodeTy] at he
          split at he
          · split at he
            · rw [Option.map_eq_some'] at he
              obtain ⟨st2, h2, hst'⟩ := he
              subst hst'
              have hd2 : st.dataPtr ≤
                  roundUp (Nat.max st.dataPtr (st.pos + w.bytes)) t.align :=
                le_trans (le_max_left _ _) (roundUp_ge _ _ (align_pos t))
              exact le_trans (le_trans hd2 (ih t v _ _ hsub h2))
                (postD_ge _ _ (align_pos t))
            · simp at he
          · simp at he
      | relPtr ov => simp [encodeTy] at he
      | seq es => simp [encodeTy] at he
      | str s => simp [encodeTy] at he
      | record fs => simp [encodeTy] at he
    | relPtr t =>
      have hsub : sizeOf t ≤ N := by simp at hN; omega
      cases v with
      | prim w' v => simp [encodeTy] at he
      | ptr w' ov => simp [encodeTy] at he
      | relPtr ov =>
        cases ov with
        | none =>
          simp only [encodeTy] at he
          cases he
          exact le_max_left _ _
        | some v =>
          simp only [encodeTy] at he
          rw [Option.map_eq_some'] at he
          obtain ⟨st2, h2, hst'⟩ := he
          subst hst'
          have hd2 : st.dataPtr ≤ roundUp (Nat.max st.dataPtr (st.pos + 8)) t.align :=
            le_trans (le_max_left _ _) (roundUp_ge _ _ (align_pos t))
          exact le_trans (le_trans hd2 (ih t v _ _ hsub h2)) (postD_ge _ _ (align_pos t))
      | seq es => simp [encodeTy] at he
      | str s => simp [encodeTy] at he
      | record fs => simp [encodeTy] at he
    | seq t =>
      have hsub : sizeOf t ≤ N := by simp at hN; omega
      cases v with
      | prim w' v => simp [encodeTy] at he
      | ptr w' ov => simp [encodeTy] at he
      | relPtr ov => simp [encodeTy] at he
      | seq es =>
        simp only [encodeTy] at he
        rw [Option.map_eq_some'] at he
        obtain ⟨st2, h2, hst'⟩ := he
        subst hst'
        have hlist := encodeListWith_mono (fun v st' => encodeTy t v st')
          (fun v st st' h => ih t v st st' hsub h) es _ _ h2
        have hd2 : st.dataPtr ≤ roundUp (Nat.max st.dataPtr (st.pos + 16)) t.align :=
          le_trans (le_max_left _ _) (roundUp_ge _ _ (align_pos t))
        refine le_trans (le_trans hd2 ?_) (postD_ge _ _ (align_pos t))
        exact le_trans (le_max_left _ _) hlist
      | str s => simp [encodeTy] at he
      | record fs => simp [encodeTy] at he
    | str =>
      cases v with
      | prim w' v => simp [encodeTy] at he
      | ptr w' ov => simp [encodeTy] at he
      | relPtr ov => simp [encodeTy] at he
      | seq es => simp [encodeTy] at he
      | str os =>
        cases os with
        | none =>
          simp only [encodeTy] at he
          cases he
          exact le_max_left _ _
        | some s =>
          simp only [encodeTy] at he
          cases he
          have h1 : st.dataPtr ≤ roundUp (Nat.max st.dataPtr (st.pos + 8)) STy.str.align :=
            le_trans (le_max_left _ _) (roundUp_ge _ _ (align_pos .str))
          refine le_trans h1 ?_
          dsimp only [postD]
          split
          · exact le_trans (by omega) (roundUp_ge _ _ (align_pos .str))
          · exact le_refl _
      | record fs => simp [encodeTy] at he
    | record ts =>
      cases v with
      | prim w' v => simp [encodeTy] at he
      | ptr w' ov => simp [encodeTy] at he
      | relPtr ov => simp [encodeTy] at he
      | seq es => simp [encodeTy] at he
      | str s => simp [encodeTy] at he
      | record vs =>
        simp only [encodeTy] at he
        have hfields := encodeFieldList_mono ts
          (fun t' v' st1 st1' ht' h1 => by
            have hlt : sizeOf t' < sizeOf ts := List.sizeOf_lt_of_mem ht'
            have : sizeOf t' ≤ N := by simp at hN; omega
            exact ih t' v' st1 st1' this h1)
          vs _ _ he
        exact le_trans (le_max_left _ _) hfields

/-! ### C5: monotonicity of the data cursor -/

/-- C5.  Across the entire write of one file the shared data cursor is
non-decreasing: every `ssbh_write` call (each of which performs the raise /
round-up / post-pointee updates of the layout engine, including all nested
pointee and element writes), every element loop, and the whole
`write_ssbh_file` leave `data_ptr` unchanged or larger. -/
theorem c5_data_cursor_monotone :
    (∀ t v st st', encodeTy t v st = some st' → st.dataPtr ≤ st'.dataPtr) ∧
      (∀ enc : SVal → WSt → Option WSt,
        (∀ v st st', enc v st = some st' → st.dataPtr ≤ st'.dataPtr) →
        ∀ vs st st', encodeListWith enc vs st = some st' → st.dataPtr ≤ st'.dataPtr) ∧
      (∀ magic t v st', encodeSsbhFile magic t v = some st' →
        20 + SVal.sizeB v ≤ st'.dataPtr) := by
  refine ⟨fun t v st st' he => encodeTy_mono (sizeOf t) t v st st' le_rfl he,
    encodeListWith_mono, ?_⟩
  intro magic t v st' he
  simp only [encodeSsbhFile] at he
  exact encodeTy_mono (sizeOf t) t v _ st' le_rfl he

/-- Witness for C5: a one-byte write from a fresh state. -/
theorem c5_data_cursor_monotone_witness :
    (0 : Nat) ≤ (WSt.mk (writeLE emptyMem 0 1 5) 1 1).dataPtr :=
  c5_data_cursor_monotone.1 (.prim .w8) (.prim .w8 5) ⟨emptyMem, 0, 0⟩
    ⟨writeLE emptyMem 0 1 5, 1, 1⟩ (by simp [encodeTy, Width.bytes])

/-! ### C4: the reservation floor of a pointer write -/

/-- C4 counterexample.  The claim says that a pointer field written at
position `here` first raises the data cursor to at least
`here + size_of(containing_record)`.  Take the record
`{ a: u32, b: RelPtr64<u8> }` (fixed size 16): its pointer field is written at
`here = 4`, so the claimed floor would be `4 + 16 = 20` with the pointee byte
placed at or above 16.  Encoding from a fresh state places the pointee byte
at position 12 and leaves the data cursor at 13, both strictly below
`here + size_of(containing_record) = 16` (the record size is 12, `here` is 4):
the code (`Ptr::ssbh_write`, `RelPtr64::ssbh_write`) raises the cursor only
by the pointer field's own width. -/
theorem c4_counterexample :
    (encodeTy (STy.record [.prim .w32, .relPtr (.prim .w8)])
        (SVal.record [.prim .w32 7, .relPtr (some (.prim .w8 9))])
        ⟨emptyMem, 0, 0⟩).map (fun st => (st.mem 12, st.dataPtr)) =
      some (some 9, 13) ∧
      12 < 4 + STy.fixedSize (STy.record [.prim .w32, .relPtr (.prim .w8)]) ∧
      13 < 4 + STy.fixedSize (STy.record [.prim .w32, .relPtr (.prim .w8)]) := by
  refine ⟨?_, ?_, ?_⟩
  · simp [encodeTy, encodeFieldList, roundUp, postD, STy.align, Width.bytes,
      svalListSize, SVal.sizeB, writeLE, mset, emptyMem]
  · simp [STy.fixedSize, styListSize, Width.bytes]
  · simp [STy.fixedSize, styListSize, Width.bytes]

/-- C4 amended.  When a pointer field is written at position `here`, the
layout engine first raises the data cursor to at least `here` plus the
pointer field's own on-disk width (8 bytes for `RelPtr64`, the offset width
for `Ptr`), not the containing record's size; the floor covering the whole
containing record is established separately, by the containing record's own
write, which raises the cursor to at least the record's start plus the
record's `size_in_bytes` before writing any field. -/
theorem c4_pointer_floor :
    (∀ t (ov : Option SVal) st st', encodeTy (.relPtr t) (.relPtr ov) st = some st' →
        Nat.max st.dataPtr (st.pos + 8) ≤ st'.dataPtr) ∧
      (∀ w t (ov : Option SVal) st st', encodeTy (.ptr w t) (.ptr w ov) st = some st' →
        Nat.max st.dataPtr (st.pos + w.bytes) ≤ st'.dataPtr) ∧
      (∀ ts vs st st', encodeTy (.record ts) (.record vs) st = some st' →
        Nat.max st.dataPtr (st.pos + svalListSize vs) ≤ st'.dataPtr) := by
  refine ⟨?_, ?_, ?_⟩
  · intro t ov st st' he
    cases ov with
    | none =>
      simp only [encodeTy] at he
      cases he
      exact le_refl _
    | some v =>
      simp only [encodeTy] at he
      rw [Option.map_eq_some'] at he
      obtain ⟨st2, h2, hst'⟩ := he
      subst hst'
      have h1 : Nat.max st.dataPtr (st.pos + 8) ≤
          roundUp (Nat.max st.dataPtr (st.pos + 8)) t.align :=
        roundUp_ge _ _ (align_pos t)
      exact le_trans (le_trans h1 (encodeTy_mono (sizeOf t) t v _ _ le_rfl h2))
        (postD_ge _ _ (align_pos t))
  · intro w t ov st st' he
    cases ov with
    | none =>
      simp only [encodeTy, if_pos] at he
      cases he
      exact le_refl _
    | some v =>
      simp only [encodeTy, if_pos] at he
      split at he
      · rw [Option.map_eq_some'] at he
        obtain ⟨st2, h2, hst'⟩ := he
        subst hst'
        have h1 : Nat.max st.dataPtr (st.pos + w.bytes) ≤
            roundUp (Nat.max st.dataPtr (st.pos + w.bytes)) t.align :=
          roundUp_ge _ _ (align_pos t)
        exact le_trans (le_trans h1 (encodeTy_mono (sizeOf t) t v _ _ le_rfl h2))
          (postD_ge _ _ (align_pos t))
      · simp at he
  · intro ts vs st st' he
    simp only [encodeTy] at he
    exact encodeFieldList_mono ts
      (fun t' v' st1 st1' _ h1 => encodeTy_mono (sizeOf t') t' v' st1 st1' le_rfl h1)
      vs _ _ he

/-- Witness for the amended C4: a null relative pointer written at position 0
raises the cursor to 8. -/
theorem c4_pointer_floor_witness :
    Nat.max 0 (0 + 8) ≤ (WSt.mk (writeLE emptyMem 0 8 0) 8 8).dataPtr :=
  c4_pointer_floor.1 (.prim .w8) none ⟨emptyMem, 0, 0⟩ ⟨writeLE emptyMem 0 8 0, 8, 8⟩
    (by simp [encodeTy])

/-! ## Mesh data extraction layer (`ssbh_data/src/mesh_data.rs`) -/

/-- The normalized element type of a vertex attribute (`enum DataType` of
`mesh_data.rs`): 8-bit unsigned normalized, 32-bit float, 16-bit float. -/
inductive DataType where
  | byte
  | float
  | halfFloat
deriving DecidableEq

/-- Byte size of the raw element read for each data type (`u8`, `f32`,
`Half`). -/
def DataType.elemSize : DataType → Nat
  | .byte => 1
  | .float => 4
  | .halfFloat => 2

/-- `f32::from(u8)`: the exact IEEE-754 single-precision bit pattern of a
small natural number (0..255).  Carried as the 32-bit pattern. -/
def f32FromU8 (v : Nat) : Nat :=
  if v = 0 then 0
  else (127 + Nat.log2 v) * 2 ^ 23 + (v - 2 ^ Nat.log2 v) * 2 ^ (23 - Nat.log2 v)

/-- `f32::from(Half)`: widening of an IEEE-754 half-precision bit pattern to
the single-precision pattern (exact; modelled from the spec: "16-bit float
... promoted to 32-bit float in the output"; the `Half` type's conversion is
not among the provided sources).  Handles infinities/NaNs (`e = 31`),
subnormals (`e = 0`), and normal values. -/
def f32FromHalf (h : Nat) : Nat :=
  let s := h / 2 ^ 15 % 2
  let e := h / 2 ^ 10 % 32
  let m := h % 2 ^ 10
  if e = 31 then s * 2 ^ 31 + 255 * 2 ^ 23 + m * 2 ^ 13
  else if e = 0 then
    if m = 0 then s * 2 ^ 31
    else s * 2 ^ 31 + (103 + Nat.log2 m) * 2 ^ 23 + (m - 2 ^ Nat.log2 m) * 2 ^ (23 - Nat.log2 m)
  else s * 2 ^ 31 + (e + 112) * 2 ^ 23 + m * 2 ^ 13

/-- `<f32>::from(reader.read_le::<t_in>()?)` of the `read_data!` macro:
promote a raw element to its `f32` bit pattern. -/
def DataType.convert : DataType → Nat → Nat
  | .byte, v => f32FromU8 v
  | .float, v => v
  | .halfFloat, v => f32FromHalf v

/-- The inner component loop of `read_data!`: read `size` consecutive
elements of the given type at byte position `q` of the buffer, each promoted
to an `f32` bit pattern. -/
def readComponents (buf : List Nat) (dt : DataType) : Nat → Nat → Option (List Nat)
  | 0, _ => some []
  | j + 1, q =>
    match readLE (bytesMem buf) q dt.elemSize with
    | none => none
    | some raw => (readComponents buf dt j (q + dt.elemSize)).map fun rest => dt.convert raw :: rest

/-- The vertex loop of `read_data!`: for `i` in `0..count`, seek to
`offset + i * stride` and read one `size`-component element (the stride may
exceed the element's natural size, interleaving attributes). -/
def readDataLoop (buf : List Nat) (dt : DataType) (size stride offset : Nat) :
    Nat → Nat → Option (List (List Nat))
  | 0, _ => some []
  | n + 1, i =>
    match readComponents buf dt size (offset + i * stride) with
    | none => none
    | some element => (readDataLoop buf dt size stride offset n (i + 1)).map fun rest =>
        element :: rest

/-- The error values of the attribute reader: the two `&str` errors of
`read_attribute_data!` ("Invalid buffer index." from the failed buffer
lookup, "Buffer indices higher than 1 are not supported." from a slot
outside {0,1}), and a propagated element-read error. -/
inductive MeshErr where
  | invalidBufferIndex
  | unsupportedBufferIndex
  | readError
deriving DecidableEq

/-- The fields of `Mesh` that `read_attribute_data!` reads: the vertex
buffers (each an `SsbhByteBuffer`'s byte list). -/
structure MeshM where
  vertexBuffers : List (List Nat)

/-- The fields of `MeshObject` that `read_attribute_data!` reads. -/
structure MeshObjectM where
  vertexCount : Nat
  vertexOffset : Nat
  vertexOffset2 : Nat
  stride : Nat
  stride2 : Nat

/-- The normalized `{buffer_slot, byte_offset, data_type}` view of a version
1.8 or 1.10 attribute descriptor (`struct BufferAccess`). -/
structure BufferAccess where
  index : Nat
  offset : Nat
  dataType : DataType

/-- `read_attribute_data!` from `ssbh_data/src/mesh_data.rs`: look up the
vertex buffer at the attribute's buffer slot ("Invalid buffer index." when
out of range), select the byte offset (slot 0: `offset + vertex_offset`,
slot 1: `offset + vertex_offset2`, otherwise "Buffer indices higher than 1
are not supported."), select the stride (slot 0: `stride`, slot 1:
`stride2`), then run the `read_data!` loop for `vertex_count` elements. -/
def read_attribute_data (mesh : MeshM) (mesh_object : MeshObjectM)
    (buffer_access : BufferAccess) (size : Nat) : Except MeshErr (List (List Nat)) :=
  match mesh.vertexBuffers.get? buffer_access.index with
  | none => .error .invalidBufferIndex
  | some attribute_buffer =>
    match (if buffer_access.index = 0 then
        Except.ok (buffer_access.offset + mesh_object.vertexOffset)
      else if buffer_access.index = 1 then
        Except.ok (buffer_access.offset + mesh_object.vertexOffset2)
      else Except.error MeshErr.unsupportedBufferIndex : Except MeshErr Nat) with
    | .error e => .error e
    | .ok offset =>
      match (if buffer_access.index = 0 then Except.ok mesh_object.stride
        else if buffer_access.index = 1 then Except.ok mesh_object.stride2
        else Except.error MeshErr.unsupportedBufferIndex : Except MeshErr Nat) with
      | .error e => .error e
      | .ok stride =>
        match readDataLoop attribute_buffer buffer_access.dataType size stride offset
            mesh_object.vertexCount 0 with
        | none => .error .readError
        | some data => .ok data

/-! ### C6: vertex-buffer slot selection -/

/-- C6 counterexample.  The claim says every attribute whose buffer slot is
outside {0,1} yields the unsupported-buffer-index failure, but the buffer
lookup runs first: with one vertex buffer and slot 2 the reader returns the
invalid-buffer-index error, a different error value. -/
theorem c6_counterexample :
    read_attribute_data ⟨[[]]⟩ ⟨0, 0, 0, 0, 0⟩ ⟨2, 0, .float⟩ 3 =
        .error .invalidBufferIndex ∧
      MeshErr.invalidBufferIndex ≠ MeshErr.unsupportedBufferIndex := by
  exact ⟨rfl, by decide⟩

/-- C6 amended.  Buffer slot 0 is read with `(stride, vertex_offset)` and
slot 1 with `(stride2, vertex_offset2)`; an attribute whose slot is outside
{0,1} fails to decode: with the unsupported-buffer-index error when the slot
is a valid index into the vertex-buffer list, and with the
invalid-buffer-index error when it is not. -/
theorem c6_buffer_slot_selection (mesh : MeshM) (obj : MeshObjectM)
    (acc : BufferAccess) (size : Nat) :
    (∀ buf, acc.index = 0 → mesh.vertexBuffers.get? 0 = some buf →
      read_attribute_data mesh obj acc size =
        match readDataLoop buf acc.dataType size obj.stride
            (acc.offset + obj.vertexOffset) obj.vertexCount 0 with
        | none => .error .readError
        | some data => .ok data) ∧
    (∀ buf, acc.index = 1 → mesh.vertexBuffers.get? 1 = some buf →
      read_attribute_data mesh obj acc size =
        match readDataLoop buf acc.dataType size obj.stride2
            (acc.offset + obj.vertexOffset2) obj.vertexCount 0 with
        | none => .error .readError
        | some data => .ok data) ∧
    (2 ≤ acc.index → acc.index < mesh.vertexBuffers.length →
      read_attribute_data mesh obj acc size = .error .unsupportedBufferIndex) ∧
    (2 ≤ acc.index → mesh.vertexBuffers.length ≤ acc.index →
      read_attribute_data mesh obj acc size = .error .invalidBufferIndex) := by
  refine ⟨?_, ?_, ?_, ?_⟩
  · intro buf h0 hb
    unfold read_attribute_data
    rw [h0, hb]
    simp
  · intro buf h1 hb
    unfold read_attribute_data
    rw [h1, hb]
    simp
  · intro h2 hlt
    obtain ⟨buf, hb⟩ : ∃ buf, mesh.vertexBuffers.get? acc.index = some buf := by
      cases hg : mesh.vertexBuffers.get? acc.index with
      | none =>
        rw [List.get?_eq_none] at hg
        omega
      | some buf => exact ⟨buf, rfl⟩
    unfold read_attribute_data
    rw [hb]
    have hne0 : acc.index ≠ 0 := by omega
    have hne1 : acc.index ≠ 1 := by omega
    simp [hne0, hne1]
  · intro h2 hge
    have hb : mesh.vertexBuffers.get? acc.index = none := List.get?_eq_none.mpr hge
    unfold read_attribute_data
    rw [hb]

/-- Witness for the amended C6: slot 2 with three buffers yields the
unsupported-buffer-index error; slot 0 with one buffer reads with
`(stride, vertex_offset)`. -/
theorem c6_buffer_slot_selection_witness :
    read_attribute_data ⟨[[], [], []]⟩ ⟨0, 0, 0, 0, 0⟩ ⟨2, 0, .float⟩ 3 =
        .error .unsupportedBufferIndex ∧
      read_attribute_data ⟨[[7]]⟩ ⟨0, 5, 0, 4, 0⟩ ⟨0, 2, .byte⟩ 1 =
        (match readDataLoop [7] DataType.byte 1 4 (2 + 5) 0 0 with
          | none => Except.error MeshErr.readError
          | some data => Except.ok data) :=
  ⟨(c6_buffer_slot_selection ⟨[[], [], []]⟩ ⟨0, 0, 0, 0, 0⟩ ⟨2, 0, .float⟩ 3).2.2.1
      (by decide) (by decide),
    (c6_buffer_slot_selection ⟨[[7]]⟩ ⟨0, 5, 0, 4, 0⟩ ⟨0, 2, .byte⟩ 1).1 [7] rfl rfl⟩

/-! ### C7: bone-weight stream decoding -/

/-- A successful little-endian read from a byte list stays within it. -/
theorem readLE_bytesMem_bound (l : List Nat) :
    ∀ n pos v, readLE (bytesMem l) pos n = some v → pos + n ≤ l.length ∨ n = 0 := by
  intro n
  induction n with
  | zero => intro pos v _; right; rfl
  | succ k ih =>
    intro pos v h
    rw [readLE] at h
    revert h
    cases hb : bytesMem l pos with
    | none => intro h; cases h
    | some b =>
      cases hr : readLE (bytesMem l) (pos + 1) k with
      | none => intro h; cases h
      | some r =>
        intro _
        left
        have hpos : pos < l.length := by
          have : l.get? pos = some b := hb
          exact List.get?_eq_some.1 this |>.1
        rcases ih (pos + 1) r hr with h1 | h1 <;> omega

/-- A little-endian read that stays within the byte list succeeds. -/
theorem readLE_bytesMem_some (l : List Nat) :
    ∀ n pos, pos + n ≤ l.length → ∃ v, readLE (bytesMem l) pos n = some v := by
  intro n
  induction n with
  | zero => intro pos _; exact ⟨0, rfl⟩
  | succ k ih =>
    intro pos hlen
    have hpos : pos < l.length := by omega
    obtain ⟨b, hb⟩ : ∃ b, bytesMem l pos = some b := by
      cases hg : l.get? pos with
      | none =>
        rw [List.get?_eq_none] at hg
        omega
      | some b => exact ⟨b, hg⟩
    obtain ⟨r, hr⟩ := ih (pos + 1) (by omega)
    refine ⟨b + 256 * r, ?_⟩
    rw [readLE, hb, hr]

/-- One `(vertex_index: i16, weight: f32)` record (`struct VertexWeight` with
its derived `BinRead`): the index as a signed value, the weight as its 32-bit
pattern. -/
structure VertexWeight where
  vertexIndex : Int
  vertexWeight : Nat
deriving DecidableEq

/-- Two's-complement interpretation of a 16-bit unsigned value (`i16`). -/
def i16FromU16 (u : Nat) : Int :=
  if u < 2 ^ 15 then (u : Int) else (u : Int) - 2 ^ 16

/-- `reader.read_le::<VertexWeight>()`: a 2-byte `i16` followed by a 4-byte
`f32`, both little-endian; fails when the record would read past the end. -/
def readVertexWeight (data : List Nat) (pos : Nat) : Option VertexWeight :=
  match readLE (bytesMem data) pos 2, readLE (bytesMem data) (pos + 2) 4 with
  | some u, some bits => some ⟨i16FromU16 u, bits⟩
  | _, _ => none

/-- A successful record read has all six bytes inside the region. -/
theorem readVertexWeight_bound {data : List Nat} {pos : Nat} {w : VertexWeight}
    (h : readVertexWeight data pos = some w) : pos + 6 ≤ data.length := by
  unfold readVertexWeight at h
  revert h
  cases h1 : readLE (bytesMem data) pos 2 with
  | none => intro h; cases h
  | some u =>
    cases h2 : readLE (bytesMem data) (pos + 2) 4 with
    | none => intro h; cases h
    | some bits =>
      intro _
      rcases readLE_bytesMem_bound data 4 (pos + 2) bits h2 with h3 | h3 <;> omega

/-- A record read succeeds whenever six bytes remain. -/
theorem readVertexWeight_some (data : List Nat) (pos : Nat) (h : pos + 6 ≤ data.length) :
    ∃ w, readVertexWeight data pos = some w := by
  obtain ⟨u, hu⟩ := readLE_bytesMem_some data 2 pos (by omega)
  obtain ⟨bits, hb⟩ := readLE_bytesMem_some data 4 (pos + 2) (by omega)
  refine ⟨⟨i16FromU16 u, bits⟩, ?_⟩
  unfold readVertexWeight
  rw [hu, hb]

/-- The per-bone weight loop of `read_influences`:
`while let Ok(influence) = reader.read_le::<VertexWeight>() { ... }` — read
records sequentially, stop silently at the first failing read. -/
def readInfluenceRecords (data : List Nat) (pos : Nat) : List VertexWeight :=
  match h : readVertexWeight data pos with
  | some w => w :: readInfluenceRecords data (pos + 6)
  | none => []
termination_by data.length - pos
decreasing_by
  have := readVertexWeight_bound h
  omega

/-- The loop consumes exactly `(length - pos) / 6` records. -/
theorem readInfluenceRecords_length (data : List Nat) :
    ∀ pos, (readInfluenceRecords data pos).length = (data.length - pos) / 6 := by
  have H : ∀ n pos, data.length - pos = n →
      (readInfluenceRecords data pos).length = (data.length - pos) / 6 := by
    intro n
    induction n using Nat.strong_induction_on with
    | _ n ih =>
      intro pos hN
      rw [readInfluenceRecords]
      cases hw : readVertexWeight data pos with
      | some w =>
        have hb := readVertexWeight_bound hw
        have hrec := ih (data.length - (pos + 6)) (by omega) (pos + 6) rfl
        simp only [List.length_cons, hrec]
        omega
      | none =>
        have hlt : data.length < pos + 6 := by
          by_contra hge
          obtain ⟨w, hw2⟩ := readVertexWeight_some data pos (by omega)
          rw [hw2] at hw
          cases hw
        simp only [List.length_nil]
        omega
  intro pos
  exact H _ pos rfl

/-- C7.  Bone-weight stream decoding reads `(i16, f32)` records sequentially
and stops without error when the next record would read past the region's
end: the loop always returns (no error value exists), consumes exactly
`length / 6` records, and on a region of exactly 9 bytes (one 6-byte record
plus 3 trailing bytes) decodes exactly one record, built from the first six
bytes only — the 3 trailing bytes are not decoded into any record. -/
theorem c7_weight_stream :
    (∀ data : List Nat, (readInfluenceRecords data 0).length = data.length / 6) ∧
      (∀ b0 b1 b2 b3 b4 b5 x y z : Nat,
        readInfluenceRecords [b0, b1, b2, b3, b4, b5, x, y, z] 0 =
          [⟨i16FromU16 (b0 + 256 * (b1 + 256 * 0)),
            b2 + 256 * (b3 + 256 * (b4 + 256 * (b5 + 256 * 0)))⟩]) := by
  constructor
  · intro data
    simpa using readInfluenceRecords_length data 0
  · intro b0 b1 b2 b3 b4 b5 x y z
    have h1 : readVertexWeight [b0, b1, b2, b3, b4, b5, x, y, z] 0 =
        some ⟨i16FromU16 (b0 + 256 * (b1 + 256 * 0)),
          b2 + 256 * (b3 + 256 * (b4 + 256 * (b5 + 256 * 0)))⟩ := by
      unfold readVertexWeight
      simp [readLE, bytesMem]
    have h2 : readVertexWeight [b0, b1, b2, b3, b4, b5, x, y, z] 6 = none := by
      unfold readVertexWeight
      simp [readLE, bytesMem]
    rw [readInfluenceRecords, h1, readInfluenceRecords, h2]

/-! ### C10: `get_attribute_name` -/

/-- `SsbhString`: a string record that is either absent (null pointer) or a
byte content (possibly empty).  Modelled from the spec ("null-terminated
byte sequence behind a pointer; empty string is representable and distinct
from absent"); `strings.rs` is not among the provided sources. -/
structure SsbhStringM where
  data : Option (List Nat)

/-- `get_string`: the byte content when the pointer is present. -/
def SsbhStringM.getString (s : SsbhStringM) : Option (List Nat) := s.data

/-- `AttributeUsage` from `formats/mesh.rs`. -/
inductive AttributeUsage where
  | position
  | normal
  | tangent
  | textureCoordinate
  | colorSet
  | colorSetV8
deriving DecidableEq

/-- `AttributeDataType` from `formats/mesh.rs` (the version 1.10 code
table). -/
inductive AttributeDataTypeM where
  | float3
  | byte4
  | halfFloat4
  | halfFloat2
deriving DecidableEq

/-- `MeshAttributeV10` from `formats/mesh.rs`. -/
structure MeshAttributeV10 where
  usage : AttributeUsage
  dataType : AttributeDataTypeM
  bufferIndex : Nat
  bufferOffset : Nat
  subIndex : Nat
  name : SsbhStringM
  attributeNames : List SsbhStringM

/-- `get_attribute_name` from `ssbh_data/src/mesh_data.rs`:
`attribute.attribute_names.elements.iter().next().unwrap().get_string()`.
The outer `Option` models partiality: `none` is the panic of `.unwrap()` on
an empty `attribute_names` list, `some r` the normal return of
`get_string()` (itself an `Option`). -/
def get_attribute_name (a : MeshAttributeV10) : Option (Option (List Nat)) :=
  match a.attributeNames.head? with
  | none => none
  | some s => some s.getString

/-- C10.  `get_attribute_name` unwraps the first element of the attribute's
`attribute_names` list: for a non-empty list it returns the first element's
string, and for an empty list the `unwrap` panics (the model's outer `none`),
so the function is not total at its public interface. -/
theorem c10_get_attribute_name (a : MeshAttributeV10) :
    (∀ s rest, a.attributeNames = s :: rest →
      get_attribute_name a = some s.getString) ∧
    (a.attributeNames = [] → get_attribute_name a = none) := by
  constructor
  · intro s rest h
    unfold get_attribute_name
    rw [h]
    rfl
  · intro h
    unfold get_attribute_name
    rw [h]
    rfl

/-- Witness for C10: a singleton list returns its only name, an empty list
panics. -/
theorem c10_get_attribute_name_witness :
    get_attribute_name ⟨.position, .float3, 0, 0, 0, ⟨none⟩, [⟨some [97]⟩]⟩ =
        some (SsbhStringM.getString ⟨some [97]⟩) ∧
      get_attribute_name ⟨.position, .float3, 0, 0, 0, ⟨none⟩, []⟩ = none :=
  ⟨(c10_get_attribute_name ⟨.position, .float3, 0, 0, 0, ⟨none⟩, [⟨some [97]⟩]⟩).1
      ⟨some [97]⟩ [] rfl,
    (c10_get_attribute_name ⟨.position, .float3, 0, 0, 0, ⟨none⟩, []⟩).2 rfl⟩

/-! ## Skeleton transform resolver (`ssbh_data/src/skel_data.rs`) -/

/-- A 4×4 matrix of exact rationals, standing in for `glam::Mat4` over `f32`
(indexed row, column; the resolver only multiplies and transposes, modelled
exactly over `ℚ`). -/
abbrev Mat4 := Fin 4 → Fin 4 → ℚ

/-- `Mat4::from_cols_array_2d`: the input's outer index is the column. -/
def from_cols_array_2d (a : Mat4) : Mat4 := fun r c => a c r

/-- `Mat4::transpose`. -/
def mat4_transpose (m : Mat4) : Mat4 := fun r c => m c r

/-- `Mat4::to_cols_array_2d`: the output's outer index is the column. -/
def to_cols_array_2d (m : Mat4) : Mat4 := fun c r => m r c

/-- `Mat4::mul_mat4` (standard matrix product `self * rhs`). -/
def mul_mat4 (a b : Mat4) : Mat4 := fun i j =>
  a i 0 * b 0 j + a i 1 * b 1 j + a i 2 * b 2 j + a i 3 * b 3 j

/-- `mat4_from_row2d` from `skel_data.rs`: interpret a row-major `[[f32; 4];
4]` as a matrix (`from_cols_array_2d` then `transpose`). -/
def mat4_from_row2d (elements : Mat4) : Mat4 := mat4_transpose (from_cols_array_2d elements)

/-- The independent specification of a row-major matrix product, used as the
right-hand side of the skeleton-chain claim. -/
def rowMajorMatMul (a b : Mat4) : Mat4 := fun i j => ∑ k : Fin 4, a i k * b k j

/-- `BoneData` from `skel_data.rs` (the transform arrays in row-major
form). -/
structure BoneData where
  name : String
  transform : Mat4
  worldTransform : Mat4
  parentIndex : Option Nat

/-- `SkelData` from `skel_data.rs`. -/
structure SkelData where
  bones : List BoneData

/-- The accumulation loop of `calculate_single_bind_transform`:
`while parent_index.is_some()` multiply the accumulated transform by the
parent's local transform and follow `parent_index`.  `fuel` counts loop
iterations: the outer `none` means the loop did not finish within `fuel`
steps (the source loop has no cycle detection and would spin forever), the
inner `Option` is the function's own `Option` result (`bones.get(i)?`
returns `None` for an out-of-bounds parent index; reaching a root returns
the accumulated matrix in row-major order). -/
def calcAccum (bones : List BoneData) : Nat → Mat4 → Option Nat → Option (Option Mat4)
  | 0, _, _ => none
  | fuel + 1, transform, parentIndex =>
    match parentIndex with
    | none => some (some (to_cols_array_2d (mat4_transpose transform)))
    | some i =>
      match bones.get? i with
      | none => some none
      | some parentBone =>
        calcAccum bones fuel (mul_mat4 transform (mat4_from_row2d parentBone.transform))
          parentBone.parentIndex

/-- `calculate_single_bind_transform` from `skel_data.rs`: locate the bone by
name (`position(|b| b.name == parent_bone_name)?`), start from its local
transform, and run the accumulation loop; absent name returns `None`. -/
def calculate_single_bind_transform (s : SkelData) (parentBoneName : String) (fuel : Nat) :
    Option (Option Mat4) :=
  match s.bones.findIdx? (fun b => b.name == parentBoneName) with
  | none => some none
  | some i =>
    match s.bones.get? i with
    | none => some none
    | some b => calcAccum s.bones fuel (mat4_from_row2d b.transform) b.parentIndex

/-! ### C8: the single-bind transform -/

/-- C8.  `calculate_single_bind_transform` returns `None` when no bone has
the requested name (for any fuel); and for a 2-bone chain (child with parent
index 1, parent with no parent) with arbitrary local transforms `A` and `B`
it returns exactly the row-major matrix product `A * B` — the child's and
parent's transforms composed in parent-after-child order for the row-vector
convention — for any fuel that lets the 2-step loop finish. -/
theorem c8_single_bind_transform :
    (∀ (s : SkelData) (name : String) (fuel : Nat),
      (∀ b ∈ s.bones, b.name ≠ name) →
      calculate_single_bind_transform s name fuel = some none) ∧
    (∀ (A B w1 w2 : Mat4) (cname pname : String) (fuel : Nat), 2 ≤ fuel →
      calculate_single_bind_transform
          ⟨[⟨cname, A, w1, some 1⟩, ⟨pname, B, w2, none⟩]⟩ cname fuel =
        some (some (rowMajorMatMul A B))) := by
  constructor
  · intro s name fuel h
    have hfind : s.bones.findIdx? (fun b => b.name == name) = none := by
      rw [List.findIdx?_eq_none_iff]
      intro b hb
      simp [h b hb]
    unfold calculate_single_bind_transform
    rw [hfind]
  · intro A B w1 w2 cname pname fuel hf
    obtain ⟨k, rfl⟩ : ∃ k, fuel = k + 2 := ⟨fuel - 2, by omega⟩
    have hfind : List.findIdx? (fun b => b.name == cname)
        [(⟨cname, A, w1, some 1⟩ : BoneData), ⟨pname, B, w2, none⟩] = some 0 := by
      rw [List.findIdx?_cons]
      simp
    unfold calculate_single_bind_transform
    rw [hfind]
    show some (some (to_cols_array_2d (mat4_transpose
        (mul_mat4 (mat4_from_row2d A) (mat4_from_row2d B))))) =
      some (some (rowMajorMatMul A B))
    have : to_cols_array_2d (mat4_transpose
        (mul_mat4 (mat4_from_row2d A) (mat4_from_row2d B))) = rowMajorMatMul A B := by
      funext i j
      simp [to_cols_array_2d, mat4_transpose, mul_mat4, mat4_from_row2d,
        from_cols_array_2d, rowMajorMatMul, Fin.sum_univ_four]
    rw [this]

/-- Witness for C8: a 1-bone skeleton with a different name returns `None`;
the 2-bone chain with two concrete matrices returns their row-major
product. -/
theorem c8_single_bind_transform_witness :
    calculate_single_bind_transform ⟨[⟨"x", fun _ _ => 0, fun _ _ => 0, none⟩]⟩ "y" 5 =
        some none ∧
      calculate_single_bind_transform
          ⟨[⟨"c", fun _ _ => 1, fun _ _ => 0, some 1⟩,
            ⟨"p", fun _ _ => 2, fun _ _ => 0, none⟩]⟩ "c" 2 =
        some (some (rowMajorMatMul (fun _ _ => 1) (fun _ _ => 2))) :=
  ⟨c8_single_bind_transform.1 ⟨[⟨"x", fun _ _ => 0, fun _ _ => 0, none⟩]⟩ "y" 5
      (by intro b hb; simp at hb; simp [hb]),
    c8_single_bind_transform.2 (fun _ _ => 1) (fun _ _ => 2) (fun _ _ => 0) (fun _ _ => 0)
      "c" "p" 2 (by omega)⟩

/-! ### C9: termination of the parent chain -/

/-- The acyclicity precondition of the claim: following `parent_index` from
the given position reaches a bone with no parent, every index on the way
being in bounds. -/
inductive ReachesRoot (bones : List BoneData) : Option Nat → Prop
  | root : ReachesRoot bones none
  | step {i : Nat} {b : BoneData} : bones.get? i = some b →
      ReachesRoot bones b.parentIndex → ReachesRoot bones (some i)

/-- Under the acyclicity precondition the accumulation loop finishes: some
fuel suffices, and any larger fuel returns the same result. -/
theorem calcAccum_terminates (bones : List BoneData) (pi : Option Nat)
    (h : ReachesRoot bones pi) :
    ∀ m, ∃ n r, ∀ fuel, n ≤ fuel → calcAccum bones fuel m pi = some r := by
  induction h with
  | root =>
    intro m
    refine ⟨1, some (to_cols_array_2d (mat4_transpose m)), ?_⟩
    intro fuel hf
    obtain ⟨k, rfl⟩ : ∃ k, fuel = k + 1 := ⟨fuel - 1, by omega⟩
    rfl
  | step hget hreach ih =>
    intro m
    rename_i i b
    obtain ⟨n, r, hr⟩ := ih (mul_mat4 m (mat4_from_row2d b.transform))
    refine ⟨n + 1, r, ?_⟩
    intro fuel hf
    obtain ⟨k, rfl⟩ : ∃ k, fuel = k + 1 := ⟨fuel - 1, by omega⟩
    show (match bones.get? i with
      | none => some none
      | some parentBone =>
        calcAccum bones k (mul_mat4 m (mat4_from_row2d parentBone.transform))
          parentBone.parentIndex) = some r
    rw [hget]
    exact hr k (by omega)

/-- A one-bone skeleton whose bone is its own parent: the loop of the source
can never leave it. -/
def cyclicSkel : SkelData :=
  ⟨[⟨"a", fun _ _ => 0, fun _ _ => 0, some 0⟩]⟩

/-- On the cyclic skeleton the accumulation loop consumes any amount of fuel
without finishing. -/
theorem calcAccum_cyclic (fuel : Nat) :
    ∀ m, calcAccum cyclicSkel.bones fuel m (some 0) = none := by
  induction fuel with
  | zero => intro m; rfl
  | succ k ih =>
    intro m
    show calcAccum cyclicSkel.bones k _ _ = none
    exact ih _

/-- C9.  `calculate_single_bind_transform` terminates for every skeleton in
which the parent chain from the named bone is acyclic (reaches a bone with
`parent_index` none, all indices in bounds): some fuel bound exists beyond
which the result is stable.  The loop performs no cycle detection: on a
concrete self-parented bone it exhausts any fuel (the model's `none`),
i.e. the source loop diverges. -/
theorem c9_chain_termination :
    (∀ (s : SkelData) (name : String) (i : Nat) (b : BoneData),
      s.bones.findIdx? (fun x => x.name == name) = some i →
      s.bones.get? i = some b →
      ReachesRoot s.bones b.parentIndex →
      ∃ n r, ∀ fuel, n ≤ fuel → calculate_single_bind_transform s name fuel = some r) ∧
    (∀ fuel, calculate_single_bind_transform cyclicSkel "a" fuel = none) := by
  constructor
  · intro s name i b hfind hget hreach
    obtain ⟨n, r, hr⟩ := calcAccum_terminates s.bones b.parentIndex hreach
      (mat4_from_row2d b.transform)
    refine ⟨n, r, ?_⟩
    intro fuel hf
    unfold calculate_single_bind_transform
    rw [hfind]
    show (match s.bones.get? i with
      | none => some none
      | some b => calcAccum s.bones fuel (mat4_from_row2d b.transform) b.parentIndex) = some r
    rw [hget]
    exact hr fuel hf
  · intro fuel
    have hfind : cyclicSkel.bones.findIdx? (fun x => x.name == "a") = some 0 := by
      show List.findIdx? _ [(⟨"a", fun _ _ => 0, fun _ _ => 0, some 0⟩ : BoneData)] = some 0
      rw [List.findIdx?_cons]
      simp
    unfold calculate_single_bind_transform
    rw [hfind]
    exact calcAccum_cyclic fuel (mat4_from_row2d (fun _ _ => 0))

/-- Witness for C9: a single root bone terminates with stable result; the
cyclic skeleton consumes fuel 7 without finishing. -/
theorem c9_chain_termination_witness :
    (∃ n r, ∀ fuel, n ≤ fuel →
      calculate_single_bind_transform ⟨[⟨"r", fun _ _ => 0, fun _ _ => 0, none⟩]⟩ "r" fuel =
        some r) ∧
      calculate_single_bind_transform cyclicSkel "a" 7 = none :=
  ⟨c9_chain_termination.1 ⟨[⟨"r", fun _ _ => 0, fun _ _ => 0, none⟩]⟩ "r" 0
      ⟨"r", fun _ _ => 0, fun _ _ => 0, none⟩ (by rw [List.findIdx?_cons]; simp) rfl
      ReachesRoot.root,
    c9_chain_termination.2 7⟩

/-! ## C1: the decode/encode round trip

The well-formedness predicate `wfTy` captures exactly the properties every
successfully decoded value has (and that the Rust types enforce by
construction): integer values fit their width, element counts fit `u64`
(they are `usize` values in Rust), and string bytes are non-null `u8`
values. -/

mutual

/-- Value/type agreement plus the representability facts the Rust types give
for free. -/
def wfTy : STy → SVal → Bool
  | .prim w, .prim w' v => decide (w = w') && decide (v < 2 ^ (8 * w.bytes))
  | .ptr w t, .ptr w' ov =>
    decide (w = w') && (match ov with | none => true | some v => wfTy t v)
  | .relPtr t, .relPtr ov => (match ov with | none => true | some v => wfTy t v)
  | .seq t, .seq es => decide (es.length < 2 ^ 64) && es.all (fun v => wfTy t v)
  | .str, .str os =>
    (match os with
      | none => true
      | some s => s.all (fun b => decide (b ≠ 0) && decide (b < 256)))
  | .record ts, .record vs => wfFieldsTy ts vs
  | _, _ => false
termination_by t _ => sizeOf t
decreasing_by all_goals (simp_wf; try omega)

/-- Pointwise well-formedness of record fields (also forces equal lengths). -/
def wfFieldsTy : List STy → List SVal → Bool
  | [], [] => true
  | t :: ts, v :: vs => wfTy t v && wfFieldsTy ts vs
  | _, _ => false
termination_by ts _ => sizeOf ts
decreasing_by all_goals (simp_wf; try omega)

end

/-- A well-formed value's `size_in_bytes` is its type's fixed size. -/
theorem sizeB_eq_fixedSize :
    ∀ N t v, sizeOf (t : STy) ≤ N → wfTy t v = true → SVal.sizeB v = STy.fixedSize t := by
  intro N
  induction N with
  | zero =>
    intro t v hN _
    have : 0 < sizeOf t := by cases t <;> simp_arith
    omega
  | succ N ih =>
    intro t v hN hwf
    cases t with
    | prim w =>
      cases v with
      | prim w' v =>
        simp only [wfTy, Bool.and_eq_true, decide_eq_true_eq] at hwf
        simp [SVal.sizeB, STy.fixedSize, hwf.1]
      | ptr w' ov => simp [wfTy] at hwf
      | relPtr ov => simp [wfTy] at hwf
      | seq es => simp [wfTy] at hwf
      | str s => simp [wfTy] at hwf
      | record fs => simp [wfTy] at hwf
    | ptr w t =>
      cases v with
      | prim w' v => simp [wfTy] at hwf
      | ptr w' ov =>
        have hw : w = w' := by
          cases ov with
          | none => simpa [wfTy] using hwf
          | some v =>
            simp only [wfTy, Bool.and_eq_true, decide_eq_true_eq] at hwf
            exact hwf.1
        simp [SVal.sizeB, STy.fixedSize, hw]
      | relPtr ov => simp [wfTy] at hwf
      | seq es => simp [wfTy] at hwf
      | str s => simp [wfTy] at hwf
      | record fs => simp [wfTy] at hwf
    | relPtr t =>
      cases v with
      | prim w' v => simp [wfTy] at hwf
      | ptr w' ov => simp [wfTy] at hwf
      | relPtr ov => simp [SVal.sizeB, STy.fixedSize]
      | seq es => simp [wfTy] at hwf
      | str s => simp [wfTy] at hwf
      | record fs => simp [wfTy] at hwf
    | seq t =>
      cases v with
      | prim w' v => simp [wfTy] at hwf
      | ptr w' ov => simp [wfTy] at hwf
      | relPtr ov => simp [wfTy] at hwf
      | seq es => simp [SVal.sizeB, STy.fixedSize]
      | str s => simp [wfTy] at hwf
      | record fs => simp [wfTy] at hwf
    | str =>
      cases v with
      | prim w' v => simp [wfTy] at hwf
      | ptr w' ov => simp [wfTy] at hwf
      | relPtr ov => simp [wfTy] at hwf
      | seq es => simp [wfTy] at hwf
      | str s => simp [SVal.sizeB, STy.fixedSize]
      | record fs => simp [wfTy] at hwf
    | record ts =>
      cases v with
      | prim w' v => simp [wfTy] at hwf
      | ptr w' ov => simp [wfTy] at hwf
      | relPtr ov => simp [wfTy] at hwf
      | seq es => simp [wfTy] at hwf
      | str s => simp [wfTy] at hwf
      | record vs =>
        simp only [wfTy] at hwf
        simp only [SVal.sizeB, STy.fixedSize]
        have hts : ∀ t' ∈ ts, sizeOf t' ≤ N := by
          intro t' ht'
          have := List.sizeOf_lt_of_mem ht'
          simp at hN
          omega
        have inner : ∀ (ts' : List STy) (vs' : List SVal),
            (∀ t' ∈ ts', sizeOf t' ≤ N) → wfFieldsTy ts' vs' = true →
            svalListSize vs' = styListSize ts' := by
          intro ts'
          induction ts' with
          | nil =>
            intro vs' _ hwf'
            cases vs' with
            | nil => simp [svalListSize, styListSize]
            | cons v vs' => simp [wfFieldsTy] at hwf'
          | cons t' ts' ihts =>
            intro vs' hts' hwf'
            cases vs' with
            | nil => simp [wfFieldsTy] at hwf'
            | cons v vs' =>
              simp only [wfFieldsTy, Bool.and_eq_true] at hwf'
              simp only [svalListSize, styListSize]
              rw [ih t' v (hts' t' (by simp)) hwf'.1,
                ihts vs' (fun u hu => hts' u (by simp [hu])) hwf'.2]
        exact inner ts vs hts hwf

/-- For a well-formed element list all elements have the element type's fixed
size. -/
theorem svalListSize_of_wf (t : STy) :
    ∀ es : List SVal, es.all (fun v => wfTy t v) = true →
      svalListSize es = es.length * STy.fixedSize t := by
  intro es
  induction es with
  | nil => intro _; simp [svalListSize]
  | cons v vs ih =>
    intro h
    simp only [List.all_cons, Bool.and_eq_true] at h
    simp only [svalListSize, List.length_cons, ih h.2,
      sizeB_eq_fixedSize (sizeOf t) t v le_rfl h.1]
    ring

/-- The fixed size of a replicated field list. -/
theorem styListSize_replicate (t : STy) :
    ∀ n, styListSize (List.replicate n t) = n * STy.fixedSize t := by
  intro n
  induction n with
  | zero => simp [styListSize]
  | succ k ih =>
    simp only [List.replicate_succ, styListSize, ih]
    ring

/-! ### Bridges between the element loops and field lists -/

/-- Encoding a homogeneous element list is encoding a replicated field
list. -/
theorem encodeListWith_eq_fieldList (t : STy) :
    ∀ es st, encodeListWith (fun v st' => encodeTy t v st') es st =
      encodeFieldList (List.replicate es.length t) es st := by
  intro es
  induction es with
  | nil => intro st; simp [encodeListWith, encodeFieldList, List.replicate]
  | cons v vs ih =>
    intro st
    simp only [encodeListWith, List.length_cons, List.replicate_succ, encodeFieldList]
    cases h : encodeTy t v st with
    | none => simp [Option.bind, h]
    | some st1 => simp [Option.bind, h, ih]

/-- Decoding `n` homogeneous elements is decoding a replicated field list. -/
theorem decodeListWith_eq_fieldTys (F : Nat) (f : Mem) (t : STy) :
    ∀ n pos, decodeListWith (fun q => decodeTy F f t q) n pos =
      decodeFieldTys F f (List.replicate n t) pos := by
  intro n
  induction n with
  | zero => intro pos; simp [decodeListWith, List.replicate, decodeFieldTys]
  | succ k ih =>
    intro pos
    simp only [decodeListWith, List.replicate_succ, decodeFieldTys]
    cases h : decodeTy F f t pos with
    | ok v p => simp [DRes.bind, ih]
    | err e p => simp [DRes.bind]

/-! ### Reading back written regions -/

/-- `readBytesM` only looks at `[pos, pos + n)`. -/
theorem readBytesM_agree (n : Nat) :
    ∀ f g pos, (∀ i, i < n → f (pos + i) = g (pos + i)) →
      readBytesM f pos n = readBytesM g pos n := by
  induction n with
  | zero => intro _ _ _ _; rfl
  | succ k ih =>
    intro f g pos h
    have h0 : f pos = g pos := by simpa using h 0 (by omega)
    have h1 : readBytesM f (pos + 1) k = readBytesM g (pos + 1) k :=
      ih f g (pos + 1) (fun i hi => by
        have := h (i + 1) (by omega)
        simpa [Nat.add_assoc, Nat.add_comm 1 i] using this)
    simp only [readBytesM]
    rw [h0, h1]

/-- Reading back a written raw byte list returns it. -/
theorem readBytesM_writeBytes (bs : List Nat) :
    ∀ m pos, readBytesM (writeBytes m pos bs) pos bs.length = some bs := by
  induction bs with
  | nil => intro m pos; rfl
  | cons b bs ih =>
    intro m pos
    have h0 : writeBytes m pos (b :: bs) pos = some b := by
      simpa using writeBytes_get (b :: bs) m pos 0 (by simp)
    have h1 : readBytesM (writeBytes m pos (b :: bs)) (pos + 1) bs.length = some bs := by
      show readBytesM (writeBytes (mset m pos b) (pos + 1) bs) (pos + 1) bs.length = some bs
      exact ih _ _
    simp only [List.length_cons, readBytesM]
    rw [h0, h1]

/-- Scanning a written null-terminated string returns its bytes: the memory
holds `s ++ [0]` at `[q, q + length s]`, the bytes of `s` are non-null, and
the fuel exceeds the string length. -/
theorem scanCString_reads :
    ∀ (s : List Nat) (g : Mem) (q fuel : Nat),
      s.length + 1 ≤ fuel →
      (∀ i, i ≤ s.length → g (q + i) = (s ++ [0]).get? i) →
      (∀ b ∈ s, b ≠ 0) →
      scanCString g fuel q = .ok s (q + s.length + 1) := by
  intro s
  induction s with
  | nil =>
    intro g q fuel hf hg _
    obtain ⟨k, rfl⟩ : ∃ k, fuel = k + 1 := ⟨fuel - 1, by omega⟩
    have h0 : g q = some 0 := by simpa using hg 0 (by simp)
    simp only [scanCString]
    rw [h0]
    simp
  | cons b bs ih =>
    intro g q fuel hf hg hnz
    obtain ⟨k, rfl⟩ : ∃ k, fuel = k + 1 := ⟨fuel - 1, by omega⟩
    have h0 : g q = some b := by simpa using hg 0 (by simp)
    have hb : b ≠ 0 := hnz b (by simp)
    have hrec : scanCString g k (q + 1) = .ok bs (q + 1 + bs.length + 1) := by
      refine ih g (q + 1) k (by simp at hf; omega) ?_ (fun x hx => hnz x (by simp [hx]))
      intro i hi
      have := hg (i + 1) (by simp; omega)
      simpa [Nat.add_assoc, Nat.add_comm 1 i] using this
    simp only [scanCString]
    rw [h0]
    cases b with
    | zero => exact absurd rfl hb
    | succ b' =>
      rw [hrec]
      show DRes.ok ((b' + 1) :: bs) (q + 1 + bs.length + 1) =
        DRes.ok ((b' + 1) :: bs) (q + ((b' + 1) :: bs).length + 1)
      simp only [DRes.ok.injEq, List.length_cons, true_and]
      omega

/-! ### Decoded values are well-formed -/

theorem pow256 (n : Nat) : (256 : Nat) ^ n = 2 ^ (8 * n) := by
  rw [show (256 : Nat) = 2 ^ 8 from rfl, ← pow_mul]

/-- The bytes returned by the string scan are non-null `u8` values. -/
theorem scanCString_wf :
    ∀ (fuel : Nat) (f : Mem) (pos : Nat) (s : List Nat) (p : Nat), MemWf f →
      scanCString f fuel pos = .ok s p → ∀ b ∈ s, b ≠ 0 ∧ b < 256 := by
  intro fuel
  induction fuel with
  | zero => intro f pos s p _ h; cases h
  | succ k ih =>
    intro f pos s p hwf h
    rw [scanCString] at h
    revert h
    cases hb : f pos with
    | none => intro h; cases h
    | some b =>
      cases b with
      | zero =>
        intro h
        cases h
        intro b hb
        cases hb
      | succ b' =>
        cases hs : scanCString f k (pos + 1) with
        | ok s2 p2 =>
          intro h
          cases h
          intro x hx
          rcases List.mem_cons.1 hx with rfl | hx2
          · exact ⟨by omega, hwf _ _ hb⟩
          · exact ih f (pos + 1) s2 _ hwf hs x hx2
        | err e p2 => intro h; cases h

/-- `wfFieldsTy` over a replicated type list is length agreement plus
pointwise well-formedness. -/
theorem wfFieldsTy_replicate (t : STy) :
    ∀ n vs, wfFieldsTy (List.replicate n t) vs = true ↔
      vs.length = n ∧ vs.all (fun v => wfTy t v) = true := by
  intro n
  induction n with
  | zero =>
    intro vs
    cases vs with
    | nil => simp [List.replicate, wfFieldsTy]
    | cons v vs => simp [List.replicate, wfFieldsTy]
  | succ k ih =>
    intro vs
    cases vs with
    | nil => simp [List.replicate_succ, wfFieldsTy]
    | cons v vs =>
      simp only [List.replicate_succ, wfFieldsTy, Bool.and_eq_true, List.length_cons,
        List.all_cons, ih]
      constructor
      · intro ⟨h1, h2, h3⟩
        exact ⟨by omega, h1, h3⟩
      · intro ⟨h1, h2, h3⟩
        exact ⟨h2, by omega, h3⟩

/-- Field-list decoding, given the per-field property. -/
theorem decodeFieldTys_wf_aux (F : Nat) (f : Mem) :
    ∀ ts : List STy,
      (∀ t ∈ ts, ∀ pos v p', decodeTy F f t pos = .ok v p' →
        wfTy t v = true ∧ p' = pos + STy.fixedSize t) →
      ∀ pos vs p', decodeFieldTys F f ts pos = .ok vs p' →
        wfFieldsTy ts vs = true ∧ p' = pos + styListSize ts := by
  intro ts
  induction ts with
  | nil =>
    intro _ pos vs p' h
    simp only [decodeFieldTys] at h
    cases h
    exact ⟨by simp [wfFieldsTy], by simp [styListSize]⟩
  | cons t ts ih =>
    intro H pos vs p' h
    simp only [decodeFieldTys] at h
    rw [DRes.bind_eq_ok] at h
    obtain ⟨v, q, h1, h2⟩ := h
    rw [DRes.bind_eq_ok] at h2
    obtain ⟨vs2, q2, h3, h4⟩ := h2
    obtain ⟨hwf1, hq⟩ := H t (by simp) pos v q h1
    obtain ⟨hwf2, hq2⟩ := ih (fun t' ht' => H t' (by simp [ht'])) q vs2 q2 h3
    cases h4
    refine ⟨?_, ?_⟩
    · simp [wfFieldsTy, hwf1, hwf2]
    · simp only [styListSize]
      omega

/-- Every successfully decoded value is well-formed and leaves the cursor
exactly past the type's fixed size. -/
theorem decodeTy_wf :
    ∀ N t, sizeOf (t : STy) ≤ N → ∀ F f pos v p', MemWf f →
      decodeTy F f t pos = .ok v p' →
      wfTy t v = true ∧ p' = pos + STy.fixedSize t := by
  intro N
  induction N with
  | zero =>
    intro t hN
    have : 0 < sizeOf t := by cases t <;> simp_arith
    omega
  | succ N ih =>
    intro t hN F f pos v p' hmem hdec
    cases t with
    | prim w =>
      simp only [decodeTy] at hdec
      rw [DRes.bind_eq_ok] at hdec
      obtain ⟨u, q, h1, h2⟩ := hdec
      rw [readNum_eq_ok] at h1
      cases h2
      have hu : u < 256 ^ w.bytes := readLE_lt _ _ _ _ hmem h1.1
      rw [pow256] at hu
      refine ⟨by simp [wfTy, hu], by simp [STy.fixedSize, h1.2]⟩
    | ptr w t =>
      have hsub : sizeOf t ≤ N := by simp at hN; omega
      simp only [decodeTy] at hdec
      rw [DRes.bind_eq_ok] at hdec
      obtain ⟨o, q, h1, h2⟩ := hdec
      rw [readNum_eq_ok] at h1
      split at h2
      · cases h2
        refine ⟨by simp [wfTy], by simp [STy.fixedSize, h1.2]⟩
      · rw [DRes.bind_eq_ok] at h2
        obtain ⟨u, q2, h3, h4⟩ := h2
        cases h4
        obtain ⟨hwfu, _⟩ := ih t hsub F f o u q2 hmem h3
        refine ⟨by simp [wfTy, hwfu], by simp [STy.fixedSize, h1.2]⟩
    | relPtr t =>
      have hsub : sizeOf t ≤ N := by simp at hN; omega
      simp only [decodeTy] at hdec
      rw [DRes.bind_eq_ok] at hdec
      obtain ⟨o, q, h1, h2⟩ := hdec
      rw [readNum_eq_ok] at h1
      split at h2
      · cases h2
        refine ⟨by simp [wfTy], by simp [STy.fixedSize, h1.2]⟩
      · revert h2
        cases habs : absoluteOffsetChecked pos o with
        | none => intro h2; cases h2
        | some sp =>
          intro h2
          rw [DRes.bind_eq_ok] at h2
          obtain ⟨u, q2, h3, h4⟩ := h2
          cases h4
          obtain ⟨hwfu, _⟩ := ih t hsub F f sp u q2 hmem h3
          refine ⟨by simp [wfTy, hwfu], by simp [STy.fixedSize, h1.2]⟩
    | seq t =>
      have hsub : sizeOf t ≤ N := by simp at hN; omega
      simp only [decodeTy] at hdec
      rw [DRes.bind_eq_ok] at hdec
      obtain ⟨o, q1, h1, h2⟩ := hdec
      rw [readNum_eq_ok] at h1
      rw [DRes.bind_eq_ok] at h2
      obtain ⟨n, q2, h3, h4⟩ := h2
      rw [readNum_eq_ok] at h3
      rw [DRes.bind_eq_ok] at h4
      obtain ⟨vs, q3, h5, h6⟩ := h4
      cases h6
      rw [decodeListWith_eq_fieldTys] at h5
      obtain ⟨hfields, _⟩ := decodeFieldTys_wf_aux F f (List.replicate n t)
        (fun t' ht' pos2 v2 p2 hd => by
          rw [List.eq_of_mem_replicate ht'] at hd ⊢
          exact ih t hsub F f pos2 v2 p2 hmem hd)
        o vs q3 h5
      obtain ⟨hlen, hall⟩ := (wfFieldsTy_replicate t n vs).1 hfields
      have hn : n < 256 ^ 8 := readLE_lt _ _ _ _ hmem h3.1
      rw [pow256] at hn
      refine ⟨?_, ?_⟩
      · simp only [wfTy, Bool.and_eq_true, decide_eq_true_eq, hall, and_true, hlen]
        exact hn
      · simp only [STy.fixedSize]
        omega
    | str =>
      simp only [decodeTy] at hdec
      rw [DRes.bind_eq_ok] at hdec
      obtain ⟨o, q, h1, h2⟩ := hdec
      rw [readNum_eq_ok] at h1
      split at h2
      · cases h2
        refine ⟨by simp [wfTy], by simp [STy.fixedSize, h1.2]⟩
      · revert h2
        cases habs : absoluteOffsetChecked pos o with
        | none => intro h2; cases h2
        | some sp =>
          intro h2
          rw [DRes.bind_eq_ok] at h2
          obtain ⟨s, q2, h3, h4⟩ := h2
          cases h4
          have hs := scanCString_wf F f sp s q2 hmem h3
          refine ⟨?_, by simp [STy.fixedSize, h1.2]⟩
          simp only [wfTy, List.all_eq_true]
          intro b hb
          obtain ⟨hb1, hb2⟩ := hs b hb
          simp [hb1, hb2]
    | record ts =>
      simp only [decodeTy] at hdec
      rw [DRes.bind_eq_ok] at hdec
      obtain ⟨vs, q, h1, h2⟩ := hdec
      obtain ⟨hfields, hq⟩ := decodeFieldTys_wf_aux F f ts
        (fun t' ht' pos2 v2 p2 hd => by
          have hlt : sizeOf t' < sizeOf ts := List.sizeOf_lt_of_mem ht'
          have hsub : sizeOf t' ≤ N := by simp at hN; omega
          exact ih t' hsub F f pos2 v2 p2 hmem hd)
        pos vs q h1
      cases h2
      refine ⟨by simp [wfTy, hfields], ?_⟩
      simp only [STy.fixedSize]
      omega

/-! ### The write-time layout specification

`EncOk t v` is the full specification of one `ssbh_write` call on a
well-formed value: the cursor lands just past the fixed-size field image, the
data pointer ends at or above the raised floor, all writes stay inside the
field image or the pointee block `[floor, data_ptr')`, and decoding the
written image (under any memory that agrees on those regions) returns exactly
the encoded value. -/

/-- The positions an encode step may touch: the fixed-size field image at the
write position, and the pointee block between the raised floor and the final
data pointer. -/
def EncRegion (st st' : WSt) (size p : Nat) : Prop :=
  (st.pos ≤ p ∧ p < st.pos + size) ∨
    (Nat.max st.dataPtr (st.pos + size) ≤ p ∧ p < st'.dataPtr)

/-- Full specification of one encode step (see the section comment). -/
def EncOk (t : STy) (v : SVal) : Prop :=
  ∀ st st', encodeTy t v st = some st' →
    st'.pos = st.pos + STy.fixedSize t ∧
    Nat.max st.dataPtr (st.pos + STy.fixedSize t) ≤ st'.dataPtr ∧
    (∀ p, st'.mem p ≠ st.mem p → EncRegion st st' (STy.fixedSize t) p) ∧
    (∀ g F, st'.dataPtr < 2 ^ 64 → st'.dataPtr ≤ F →
      (∀ p, EncRegion st st' (STy.fixedSize t) p → g p = st'.mem p) →
      decodeTy F g t st.pos = .ok v (st.pos + STy.fixedSize t))

/-- Well-formed field values have the field types' total size. -/
theorem svalListSize_eq_styListSize :
    ∀ (ts : List STy) (vs : List SVal), wfFieldsTy ts vs = true →
      svalListSize vs = styListSize ts := by
  intro ts
  induction ts with
  | nil =>
    intro vs h
    cases vs with
    | nil => simp [svalListSize, styListSize]
    | cons v vs => simp [wfFieldsTy] at h
  | cons t ts ih =>
    intro vs h
    cases vs with
    | nil => simp [wfFieldsTy] at h
    | cons v vs =>
      simp only [wfFieldsTy, Bool.and_eq_true] at h
      simp only [svalListSize, styListSize,
        sizeB_eq_fixedSize (sizeOf t) t v le_rfl h.1, ih vs h.2]

/-- Pointwise access to `wfFieldsTy`. -/
theorem wfFieldsTy_get :
    ∀ (ts : List STy) (vs : List SVal), wfFieldsTy ts vs = true →
      ∀ i t v, ts.get? i = some t → vs.get? i = some v → wfTy t v = true := by
  intro ts
  induction ts with
  | nil => intro vs _ i t v ht; simp at ht
  | cons t0 ts ih =>
    intro vs h i t v ht hv
    cases vs with
    | nil => simp [wfFieldsTy] at h
    | cons v0 vs =>
      simp only [wfFieldsTy, Bool.and_eq_true] at h
      cases i with
      | zero =>
        rw [List.get?_cons_zero] at ht hv
        cases ht
        cases hv
        exact h.1
      | succ j =>
        rw [List.get?_cons_succ] at ht hv
        exact ih vs h.2 j t v ht hv

/-- The sequential field writer: full specification, given each field's
`EncOk`, under the precondition that the data pointer already sits past the
whole field block (the containing record's raise). -/
theorem encodeFieldList_spec :
    ∀ (ts : List STy) (vs : List SVal),
      (∀ i t v, ts.get? i = some t → vs.get? i = some v → EncOk t v) →
      ∀ st st', encodeFieldList ts vs st = some st' →
        st.pos + styListSize ts ≤ st.dataPtr →
        st'.pos = st.pos + styListSize ts ∧
        st.dataPtr ≤ st'.dataPtr ∧
        (∀ p, st'.mem p ≠ st.mem p →
          (st.pos ≤ p ∧ p < st.pos + styListSize ts) ∨
          (st.dataPtr ≤ p ∧ p < st'.dataPtr)) ∧
        (∀ g F, st'.dataPtr < 2 ^ 64 → st'.dataPtr ≤ F →
          (∀ p, (st.pos ≤ p ∧ p < st.pos + styListSize ts) ∨
            (st.dataPtr ≤ p ∧ p < st'.dataPtr) → g p = st'.mem p) →
          decodeFieldTys F g ts st.pos = .ok vs (st.pos + styListSize ts)) := by
  intro ts
  induction ts with
  | nil =>
    intro vs H st st' he hpre
    cases vs with
    | nil =>
      simp only [encodeFieldList] at he
      cases he
      refine ⟨by simp [styListSize], le_refl _, ?_, ?_⟩
      · intro p hp
        exact absurd rfl hp
      · intro g F _ _ _
        simp [decodeFieldTys, styListSize]
    | cons v vs => simp [encodeFieldList] at he
  | cons t ts ih =>
    intro vs H st st' he hpre
    cases vs with
    | nil => simp [encodeFieldList] at he
    | cons v vs =>
      simp only [encodeFieldList] at he
      rw [Option.bind_eq_some] at he
      obtain ⟨st1, h1, h2⟩ := he
      have H0 : EncOk t v := H 0 t v rfl rfl
      obtain ⟨hA1, hB1, hC1, hD1⟩ := H0 st st1 h1
      have hsty : styListSize (t :: ts) = STy.fixedSize t + styListSize ts := rfl
      have hmax1 : Nat.max st.dataPtr (st.pos + STy.fixedSize t) = st.dataPtr := by
        rw [hsty] at hpre
        exact Nat.max_eq_left (by omega)
      have hd1 : st.dataPtr ≤ st1.dataPtr := by
        rw [hmax1] at hB1
        exact hB1
      have hpre2 : st1.pos + styListSize ts ≤ st1.dataPtr := by
        rw [hsty] at hpre
        omega
    
      obtain ⟨hA2, hB2, hC2, hD2⟩ :=
        ih vs (fun i t' v' ht' hv' => H (i + 1) t' v' ht' hv') st1 st' h2 hpre2
      have hreg1 : ∀ p, st1.mem p ≠ st.mem p →
          (st.pos ≤ p ∧ p < st.pos + STy.fixedSize t) ∨
          (st.dataPtr ≤ p ∧ p < st1.dataPtr) := by
        intro p hp
        rcases hC1 p hp with h | h
        · exact Or.inl h
        · rw [hmax1] at h
          exact Or.inr h
      refine ⟨?_, ?_, ?_, ?_⟩
      · rw [hA2, hA1, hsty]
        omega
      · exact le_trans hd1 hB2
      · intro p hp
        rw [hsty]
        by_cases hmid : st'.mem p = st1.mem p
        · rcases hreg1 p (by rw [← hmid]; exact hp) with h | h
          · left
            omega
          · right
            exact ⟨h.1, lt_of_lt_of_le h.2 hB2⟩
        · rcases hC2 p hmid with h | h
          · left
            rw [hA1] at h
            omega
          · right
            exact ⟨le_trans hd1 h.1, h.2⟩
      · intro g F hb hF hg
        rw [hsty] at hpre
        -- the two sub-regions are disjoint, so the final memory agrees with
        -- the intermediate one on the first field's region
        have hfirst : ∀ p, (st.pos ≤ p ∧ p < st.pos + STy.fixedSize t) ∨
            (st.dataPtr ≤ p ∧ p < st1.dataPtr) → st'.mem p = st1.mem p := by
          intro p hp
          by_contra hne
          rcases hC2 p hne with h | h
          · rw [hA1] at h
            omega
          · omega
        have hgfirst : ∀ p, EncRegion st st1 (STy.fixedSize t) p → g p = st1.mem p := by
          intro p hp
          have hp' : (st.pos ≤ p ∧ p < st.pos + STy.fixedSize t) ∨
              (st.dataPtr ≤ p ∧ p < st1.dataPtr) := by
            rcases hp with h | h
            · exact Or.inl h
            · rw [hmax1] at h
              exact Or.inr h
          have hmem : g p = st'.mem p := by
            apply hg
            rcases hp' with h | h
            · left
              rw [hsty]
              omega
            · right
              exact ⟨h.1, lt_of_lt_of_le h.2 hB2⟩
          rw [hmem, hfirst p hp']
      
        have hdec1 : decodeTy F g t st.pos = .ok v (st.pos + STy.fixedSize t) :=
          hD1 g F (lt_of_le_of_lt hB2 hb) (le_trans hB2 hF) hgfirst
        have hdec2 : decodeFieldTys F g ts st1.pos = .ok vs (st1.pos + styListSize ts) :=
          hD2 g F hb hF (fun p hp => hg p (by
            rcases hp with h | h
            · left
              rw [hA1] at h
              rw [hsty]
              omega
            · right
              exact ⟨le_trans hd1 h.1, h.2⟩))
        simp only [decodeFieldTys]
        rw [hdec1, DRes.bind_ok, ← hA1, hdec2, DRes.bind_ok, hA1, hsty]
        have : st.pos + STy.fixedSize t + styListSize ts =
            st.pos + (STy.fixedSize t + styListSize ts) := by omega
        rw [this]

/-- A primitive write satisfies the encode specification. -/
theorem encOk_prim (w : Width) (v : Nat) (hv : v < 2 ^ (8 * w.bytes)) :
    EncOk (.prim w) (.prim w v) := by
  intro st st' he
  simp only [encodeTy] at he
  rw [if_pos trivial] at he
  cases he
  simp only [STy.fixedSize, EncRegion]
  refine ⟨by simp, le_refl _, ?_, ?_⟩
  · intro p hp
    have hin : ¬(p < st.pos ∨ st.pos + w.bytes ≤ p) := fun hout =>
      hp (writeLE_outside _ _ _ _ _ hout)
    left
    omega
  · intro g F _ _ hg
    have hag : readLE g st.pos w.bytes = some v := by
      have h1 : ∀ i, i < w.bytes →
          g (st.pos + i) = writeLE st.mem st.pos w.bytes v (st.pos + i) := by
        intro i hi
        exact hg _ (Or.inl ⟨by omega, by omega⟩)
      rw [readLE_agree w.bytes g _ st.pos h1, readLE_writeLE,
        Nat.mod_eq_of_lt (by rw [pow256]; exact hv)]
    simp only [decodeTy]
    rw [show readNum g st.pos w.bytes = .ok v (st.pos + w.bytes) from by
      simp [readNum, hag], DRes.bind_ok]

/-- A null absolute pointer write satisfies the encode specification. -/
theorem encOk_ptrNone (w : Width) (t : STy) : EncOk (.ptr w t) (.ptr w none) := by
  intro st st' he
  simp only [encodeTy] at he
  rw [if_pos trivial] at he
  cases he
  simp only [STy.fixedSize, EncRegion]
  refine ⟨by simp, le_refl _, ?_, ?_⟩
  · intro p hp
    have hin : ¬(p < st.pos ∨ st.pos + w.bytes ≤ p) := fun hout =>
      hp (writeLE_outside _ _ _ _ _ hout)
    left
    omega
  · intro g F _ _ hg
    have hag : readLE g st.pos w.bytes = some 0 := by
      have h1 : ∀ i, i < w.bytes →
          g (st.pos + i) = writeLE st.mem st.pos w.bytes 0 (st.pos + i) := by
        intro i hi
        exact hg _ (Or.inl ⟨by omega, by omega⟩)
      rw [readLE_agree w.bytes g _ st.pos h1, readLE_writeLE, Nat.zero_mod]
    simp only [decodeTy]
    rw [show readNum g st.pos w.bytes = .ok 0 (st.pos + w.bytes) from by
      simp [readNum, hag], DRes.bind_ok]
    simp

/-- A null relative pointer write satisfies the encode specification. -/
theorem encOk_relPtrNone (t : STy) : EncOk (.relPtr t) (.relPtr none) := by
  intro st st' he
  simp only [encodeTy] at he
  cases he
  simp only [STy.fixedSize, EncRegion]
  refine ⟨by simp, le_refl _, ?_, ?_⟩
  · intro p hp
    have hin : ¬(p < st.pos ∨ st.pos + 8 ≤ p) := fun hout =>
      hp (writeLE_outside _ _ _ _ _ hout)
    left
    omega
  · intro g F _ _ hg
    have hag : readLE g st.pos 8 = some 0 := by
      have h1 : ∀ i, i < 8 → g (st.pos + i) = writeLE st.mem st.pos 8 0 (st.pos + i) := by
        intro i hi
        exact hg _ (Or.inl ⟨by omega, by omega⟩)
      rw [readLE_agree 8 g _ st.pos h1, readLE_writeLE, Nat.zero_mod]
    simp only [decodeTy]
    rw [show readNum g st.pos 8 = .ok 0 (st.pos + 8) from by simp [readNum, hag], DRes.bind_ok]
    simp

/-- A null string write satisfies the encode specification. -/
theorem encOk_strNone : EncOk .str (.str none) := by
  intro st st' he
  simp only [encodeTy] at he
  cases he
  simp only [STy.fixedSize, EncRegion]
  refine ⟨by simp, le_refl _, ?_, ?_⟩
  · intro p hp
    have hin : ¬(p < st.pos ∨ st.pos + 8 ≤ p) := fun hout =>
      hp (writeLE_outside _ _ _ _ _ hout)
    left
    omega
  · intro g F _ _ hg
    have hag : readLE g st.pos 8 = some 0 := by
      have h1 : ∀ i, i < 8 → g (st.pos + i) = writeLE st.mem st.pos 8 0 (st.pos + i) := by
        intro i hi
        exact hg _ (Or.inl ⟨by omega, by omega⟩)
      rw [readLE_agree 8 g _ st.pos h1, readLE_writeLE, Nat.zero_mod]
    simp only [decodeTy]
    rw [show readNum g st.pos 8 = .ok 0 (st.pos + 8) from by simp [readNum, hag], DRes.bind_ok]
    simp

/-- A non-null absolute pointer write satisfies the encode specification when
its pointee does. -/
theorem encOk_ptrSome (w : Width) (t : STy) (v : SVal) (IH : EncOk t v) :
    EncOk (.ptr w t) (.ptr w (some v)) := by
  intro st st' he
  simp only [encodeTy] at he
  rw [if_pos trivial] at he
  split at he
  · rename_i hlt
    rw [Option.map_eq_some'] at he
    obtain ⟨st2, h2, rfl⟩ := he
    obtain ⟨hA2, hB2, hC2, hD2⟩ := IH _ _ h2
    have halign := align_pos t
    have hwb := widthBytes_pos w
    set d2 := roundUp (Nat.max st.dataPtr (st.pos + w.bytes)) t.align with hd2def
    have hd : Nat.max st.dataPtr (st.pos + w.bytes) ≤ d2 := roundUp_ge _ _ halign
    have hposwb : st.pos + w.bytes ≤ d2 := le_trans (le_max_right _ _) hd
    simp only [EncRegion] at hC2 hD2
    dsimp only at hA2 hB2 hC2 hD2
    have hft : d2 + STy.fixedSize t ≤ st2.dataPtr := le_trans (le_max_right _ _) hB2
    have hd2st2 : d2 ≤ st2.dataPtr := le_trans (le_max_left _ _) hB2
    have hpost : st2.dataPtr ≤ postD t.align st2 := postD_ge _ _ halign
    have hmax1 : d2 ≤ Nat.max d2 (d2 + STy.fixedSize t) := le_max_left _ _
    simp only [STy.fixedSize, EncRegion]
    try dsimp only
    refine ⟨by simp, by omega, ?_, ?_⟩
    · intro p hp
      by_cases hm : st2.mem p = writeLE st.mem st.pos w.bytes d2 p
      · have hout : ¬(p < st.pos ∨ st.pos + w.bytes ≤ p) := fun hout =>
          hp (by rw [hm, writeLE_outside _ _ _ _ _ hout])
        left
        omega
      · rcases hC2 p hm with h | h
        · right
          omega
        · right
          omega
    · intro g F hb hF hg
      have hgoff : ∀ i, i < w.bytes →
          g (st.pos + i) = writeLE st.mem st.pos w.bytes d2 (st.pos + i) := by
        intro i hi
        have h1 : g (st.pos + i) = st2.mem (st.pos + i) :=
          hg _ (Or.inl ⟨by omega, by omega⟩)
        have h2 : st2.mem (st.pos + i) = writeLE st.mem st.pos w.bytes d2 (st.pos + i) := by
          by_contra hne
          rcases hC2 _ hne with h | h
          · omega
          · omega
        rw [h1, h2]
      have hread : readLE g st.pos w.bytes = some d2 := by
        rw [readLE_agree w.bytes g (writeLE st.mem st.pos w.bytes d2) st.pos hgoff,
          readLE_writeLE, Nat.mod_eq_of_lt (by rw [pow256]; exact hlt)]
      have hptr : decodeTy F g t d2 = .ok v (d2 + STy.fixedSize t) := by
        apply hD2 g F (lt_of_le_of_lt hpost hb) (le_trans hpost hF)
        intro p hp
        apply hg
        right
        rcases hp with h | h <;> exact ⟨by omega, by omega⟩
      simp only [decodeTy]
      rw [show readNum g st.pos w.bytes = .ok d2 (st.pos + w.bytes) from
        readNum_eq_ok.mpr ⟨hread, rfl⟩, DRes.bind_ok]
      rw [if_neg (by omega : ¬d2 = 0)]
      rw [hptr, DRes.bind_ok]
  · simp at he

/-- A non-null relative pointer write satisfies the encode specification when
its pointee does. -/
theorem encOk_relPtrSome (t : STy) (v : SVal) (IH : EncOk t v) :
    EncOk (.relPtr t) (.relPtr (some v)) := by
  intro st st' he
  simp only [encodeTy] at he
  rw [Option.map_eq_some'] at he
  obtain ⟨st2, h2, rfl⟩ := he
  obtain ⟨hA2, hB2, hC2, hD2⟩ := IH _ _ h2
  have halign := align_pos t
  set d2 := roundUp (Nat.max st.dataPtr (st.pos + 8)) t.align with hd2def
  have hd : Nat.max st.dataPtr (st.pos + 8) ≤ d2 := roundUp_ge _ _ halign
  have hposwb : st.pos + 8 ≤ d2 := le_trans (le_max_right _ _) hd
  simp only [EncRegion] at hC2 hD2
  dsimp only at hA2 hB2 hC2 hD2
  have hft : d2 + STy.fixedSize t ≤ st2.dataPtr := le_trans (le_max_right _ _) hB2
  have hd2st2 : d2 ≤ st2.dataPtr := le_trans (le_max_left _ _) hB2
  have hpost : st2.dataPtr ≤ postD t.align st2 := postD_ge _ _ halign
  have hmax1 : d2 ≤ Nat.max d2 (d2 + STy.fixedSize t) := le_max_left _ _
  simp only [STy.fixedSize, EncRegion]
  try dsimp only
  refine ⟨by simp, by omega, ?_, ?_⟩
  · intro p hp
    by_cases hm : st2.mem p = writeLE st.mem st.pos 8 (d2 - st.pos) p
    · have hout : ¬(p < st.pos ∨ st.pos + 8 ≤ p) := fun hout =>
        hp (by rw [hm, writeLE_outside _ _ _ _ _ hout])
      left
      omega
    · rcases hC2 p hm with h | h
      · right
        omega
      · right
        omega
  · intro g F hb hF hg
    have h256 : (256 : Nat) ^ 8 = 2 ^ 64 := by norm_num
    have hgoff : ∀ i, i < 8 →
        g (st.pos + i) = writeLE st.mem st.pos 8 (d2 - st.pos) (st.pos + i) := by
      intro i hi
      have h1 : g (st.pos + i) = st2.mem (st.pos + i) :=
        hg _ (Or.inl ⟨by omega, by omega⟩)
      have h2 : st2.mem (st.pos + i) = writeLE st.mem st.pos 8 (d2 - st.pos) (st.pos + i) := by
        by_contra hne
        rcases hC2 _ hne with h | h
        · omega
        · omega
      rw [h1, h2]
    have hread : readLE g st.pos 8 = some (d2 - st.pos) := by
      rw [readLE_agree 8 g (writeLE st.mem st.pos 8 (d2 - st.pos)) st.pos hgoff,
        readLE_writeLE, Nat.mod_eq_of_lt (by rw [h256]; omega)]
    have hptr : decodeTy F g t d2 = .ok v (d2 + STy.fixedSize t) := by
      apply hD2 g F (lt_of_le_of_lt hpost hb) (le_trans hpost hF)
      intro p hp
      apply hg
      right
      rcases hp with h | h <;> exact ⟨by omega, by omega⟩
    have habs : absoluteOffsetChecked st.pos (d2 - st.pos) = some d2 := by
      simp only [absoluteOffsetChecked]
      rw [if_pos (by omega)]
      congr 1
      omega
    simp only [decodeTy]
    rw [show readNum g st.pos 8 = .ok (d2 - st.pos) (st.pos + 8) from
      readNum_eq_ok.mpr ⟨hread, rfl⟩, DRes.bind_ok]
    rw [if_neg (by omega : ¬d2 - st.pos = 0)]
    simp only [habs, hptr, DRes.bind_ok]

/-- A record write satisfies the encode specification when each field does. -/
theorem encOk_record (ts : List STy) (vs : List SVal)
    (hsz : svalListSize vs = styListSize ts)
    (IH : ∀ i t v, ts.get? i = some t → vs.get? i = some v → EncOk t v) :
    EncOk (.record ts) (.record vs) := by
  intro st st' he
  simp only [encodeTy] at he
  rw [hsz] at he
  obtain ⟨hA, hB, hC, hD⟩ :=
    encodeFieldList_spec ts vs IH _ st' he (by dsimp only; exact le_max_right _ _)
  dsimp only at hA hB hC hD
  simp only [STy.fixedSize, EncRegion]
  refine ⟨hA, hB, ?_, ?_⟩
  · intro p hp
    exact hC p hp
  · intro g F hb hF hg
    simp only [decodeTy]
    rw [hD g F hb hF hg, DRes.bind_ok]

/-- An array (`SsbhArray`) write satisfies the encode specification when each
element does. -/
theorem encOk_seq (t : STy) (es : List SVal)
    (hlen : es.length < 2 ^ 64)
    (hsz : svalListSize es = es.length * STy.fixedSize t)
    (IH : ∀ v ∈ es, EncOk t v) :
    EncOk (.seq t) (.seq es) := by
  intro st st' he
  simp only [encodeTy] at he
  rw [encodeListWith_eq_fieldList] at he
  rw [Option.map_eq_some'] at he
  obtain ⟨st2, h2, rfl⟩ := he
  have halign := align_pos t
  set d2 := roundUp (Nat.max st.dataPtr (st.pos + 16)) t.align with hd2def
  have hd : Nat.max st.dataPtr (st.pos + 16) ≤ d2 := roundUp_ge _ _ halign
  have hpos16 : st.pos + 16 ≤ d2 := le_trans (le_max_right _ _) hd
  have hrep : styListSize (List.replicate es.length t) = es.length * STy.fixedSize t :=
    styListSize_replicate t es.length
  have HIH : ∀ i t' v, (List.replicate es.length t).get? i = some t' →
      es.get? i = some v → EncOk t' v := by
    intro i t' v ht' hv
    have ht'' : t' = t := List.eq_of_mem_replicate (List.get?_mem ht')
    subst ht''
    exact IH v (List.get?_mem hv)
  obtain ⟨hA2, hB2, hC2, hD2⟩ :=
    encodeFieldList_spec _ es HIH _ st2 h2
      (by dsimp only; rw [hrep, hsz]; exact le_max_right _ _)
  dsimp only at hA2 hB2 hC2 hD2
  rw [hrep] at hA2 hC2 hD2
  have hmax1 : d2 ≤ Nat.max d2 (d2 + svalListSize es) := le_max_left _ _
  have hft : d2 + es.length * STy.fixedSize t ≤ st2.dataPtr := by
    rw [← hsz]
    exact le_trans (le_max_right _ _) hB2
  have hd2st2 : d2 ≤ st2.dataPtr := le_trans hmax1 hB2
  have hpost : st2.dataPtr ≤ postD t.align st2 := postD_ge _ _ halign
  simp only [STy.fixedSize, EncRegion]
  try dsimp only
  refine ⟨by simp, by omega, ?_, ?_⟩
  · intro p hp
    by_cases hm : st2.mem p = writeLE (writeLE st.mem st.pos 8 d2) (st.pos + 8) 8 es.length p
    · have hout : ¬(p < st.pos ∨ st.pos + 16 ≤ p) := by
        intro hout
        apply hp
        rw [hm, writeLE_outside 8 _ _ _ _ (by omega), writeLE_outside 8 _ _ _ _ (by omega)]
      left
      omega
    · rcases hC2 p hm with h | h
      · right
        omega
      · right
        omega
  · intro g F hb hF hg
    have h256 : (256 : Nat) ^ 8 = 2 ^ 64 := by norm_num
    have hg16 : ∀ i, i < 16 →
        g (st.pos + i) = writeLE (writeLE st.mem st.pos 8 d2) (st.pos + 8) 8 es.length (st.pos + i) := by
      intro i hi
      have h1 : g (st.pos + i) = st2.mem (st.pos + i) :=
        hg _ (Or.inl ⟨by omega, by omega⟩)
      have h2 : st2.mem (st.pos + i) =
          writeLE (writeLE st.mem st.pos 8 d2) (st.pos + 8) 8 es.length (st.pos + i) := by
        by_contra hne
        rcases hC2 _ hne with h | h
        · omega
        · omega
      rw [h1, h2]
    have hread1 : readLE g st.pos 8 = some d2 := by
      have hagree : ∀ i, i < 8 → g (st.pos + i) = writeLE st.mem st.pos 8 d2 (st.pos + i) := by
        intro i hi
        rw [hg16 i (by omega)]
        exact writeLE_outside 8 _ _ _ _ (by omega)
      rw [readLE_agree 8 g _ st.pos hagree, readLE_writeLE,
        Nat.mod_eq_of_lt (by rw [h256]; omega)]
    have hread2 : readLE g (st.pos + 8) 8 = some es.length := by
      have hagree : ∀ i, i < 8 → g (st.pos + 8 + i) =
          writeLE (writeLE st.mem st.pos 8 d2) (st.pos + 8) 8 es.length (st.pos + 8 + i) := by
        intro i hi
        have h := hg16 (8 + i) (by omega)
        rw [show st.pos + (8 + i) = st.pos + 8 + i from by omega] at h
        exact h
      rw [readLE_agree 8 g _ (st.pos + 8) hagree, readLE_writeLE,
        Nat.mod_eq_of_lt (by rw [h256]; exact hlen)]
    have helems : decodeFieldTys F g (List.replicate es.length t) d2 =
        .ok es (d2 + es.length * STy.fixedSize t) := by
      apply hD2 g F (lt_of_le_of_lt hpost hb) (le_trans hpost hF)
      intro p hp
      apply hg
      right
      rcases hp with h | h <;> exact ⟨by omega, by omega⟩
    simp only [decodeTy]
    rw [show readNum g st.pos 8 = .ok d2 (st.pos + 8) from
      readNum_eq_ok.mpr ⟨hread1, rfl⟩, DRes.bind_ok]
    rw [show readNum g (st.pos + 8) 8 = .ok es.length (st.pos + 16) from
      readNum_eq_ok.mpr ⟨hread2, by omega⟩, DRes.bind_ok]
    rw [decodeListWith_eq_fieldTys, helems, DRes.bind_ok]

/-- A present `SsbhString` write satisfies the encode specification when its
bytes are non-null. -/
theorem encOk_strSome (s : List Nat) (hs : ∀ b ∈ s, b ≠ 0) :
    EncOk .str (.str (some s)) := by
  intro st st' he
  simp only [encodeTy] at he
  cases he
  have halignS : 0 < STy.str.align := align_pos .str
  set d2 := roundUp (Nat.max st.dataPtr (st.pos + 8)) STy.str.align with hd2def
  have hd : Nat.max st.dataPtr (st.pos + 8) ≤ d2 := roundUp_ge _ _ halignS
  have hpos8 : st.pos + 8 ≤ d2 := le_trans (le_max_right _ _) hd
  set m2 := writeBytes (writeLE st.mem st.pos 8 (d2 - st.pos)) d2 (s ++ [0]) with hm2def
  have hD3 : d2 + (s.length + 1) ≤ postD STy.str.align ⟨m2, d2 + (s.length + 1), d2⟩ := by
    simp only [postD]
    split
    · exact roundUp_ge _ _ halignS
    · rename_i hc
      try dsimp only at hc ⊢
      omega
  have hlenS : (s ++ [0]).length = s.length + 1 := by simp
  simp only [STy.fixedSize, EncRegion]
  try dsimp only
  refine ⟨by simp, by omega, ?_, ?_⟩
  · intro p hp
    by_cases h1 : p < st.pos ∨ st.pos + 8 ≤ p
    · by_cases h2 : p < d2 ∨ d2 + (s.length + 1) ≤ p
      · exfalso
        apply hp
        rw [hm2def, writeBytes_outside _ _ _ _ (by rw [hlenS]; omega),
          writeLE_outside 8 _ _ _ _ h1]
      · right
        constructor <;> omega
    · left
      omega
  · intro g F hb hF hg
    have h256 : (256 : Nat) ^ 8 = 2 ^ 64 := by norm_num
    have hgoff : ∀ i, i < 8 →
        g (st.pos + i) = writeLE st.mem st.pos 8 (d2 - st.pos) (st.pos + i) := by
      intro i hi
      have h1 : g (st.pos + i) = m2 (st.pos + i) :=
        hg _ (Or.inl ⟨by omega, by omega⟩)
      rw [h1, hm2def, writeBytes_outside _ _ _ _ (by left; omega)]
    have hread : readLE g st.pos 8 = some (d2 - st.pos) := by
      rw [readLE_agree 8 g (writeLE st.mem st.pos 8 (d2 - st.pos)) st.pos hgoff,
        readLE_writeLE, Nat.mod_eq_of_lt (by rw [h256]; omega)]
    have habs : absoluteOffsetChecked st.pos (d2 - st.pos) = some d2 := by
      simp only [absoluteOffsetChecked]
      rw [if_pos (by omega)]
      congr 1
      omega
    have hscan : scanCString g F d2 = .ok s (d2 + s.length + 1) := by
      apply scanCString_reads s g d2 F (by omega)
      · intro i hi
        have h1 : g (d2 + i) = m2 (d2 + i) :=
          hg _ (Or.inr ⟨by omega, by omega⟩)
        rw [h1, hm2def, writeBytes_get _ _ _ _ (by rw [hlenS]; omega)]
      · exact hs
    simp only [decodeTy]
    rw [show readNum g st.pos 8 = .ok (d2 - st.pos) (st.pos + 8) from
      readNum_eq_ok.mpr ⟨hread, rfl⟩, DRes.bind_ok]
    rw [if_neg (by omega : ¬d2 - st.pos = 0)]
    simp only [habs, hscan, DRes.bind_ok]

/-- Main induction for the round trip: every write of a well-formed value
satisfies the full encode specification `EncOk`. -/
theorem encodeTy_spec :
    ∀ N t v, sizeOf (t : STy) ≤ N → wfTy t v = true → EncOk t v := by
  intro N
  induction N with
  | zero =>
    intro t v hN _
    have : 0 < sizeOf t := by cases t <;> simp_arith
    omega
  | succ N ih =>
    intro t v hN hwf
    cases t with
    | prim w =>
      cases v with
      | prim w' v =>
        simp only [wfTy, Bool.and_eq_true, decide_eq_true_eq] at hwf
        obtain ⟨hww, hv⟩ := hwf
        subst hww
        exact encOk_prim w v hv
      | ptr w' ov => simp [wfTy] at hwf
      | relPtr ov => simp [wfTy] at hwf
      | seq es => simp [wfTy] at hwf
      | str s => simp [wfTy] at hwf
      | record fs => simp [wfTy] at hwf
    | ptr w t =>
      have hsub : sizeOf t ≤ N := by simp_arith at hN; omega
      cases v with
      | prim w' v => simp [wfTy] at hwf
      | ptr w' ov =>
        cases ov with
        | none =>
          have hww : w = w' := by simpa [wfTy] using hwf
          subst hww
          exact encOk_ptrNone w t
        | some u =>
          simp only [wfTy, Bool.and_eq_true, decide_eq_true_eq] at hwf
          obtain ⟨hww, hwfu⟩ := hwf
          subst hww
          exact encOk_ptrSome w t u (ih t u hsub hwfu)
      | relPtr ov => simp [wfTy] at hwf
      | seq es => simp [wfTy] at hwf
      | str s => simp [wfTy] at hwf
      | record fs => simp [wfTy] at hwf
    | relPtr t =>
      have hsub : sizeOf t ≤ N := by simp_arith at hN; omega
      cases v with
      | prim w' v => simp [wfTy] at hwf
      | ptr w' ov => simp [wfTy] at hwf
      | relPtr ov =>
        cases ov with
        | none => exact encOk_relPtrNone t
        | some u =>
          have hwfu : wfTy t u = true := by simpa [wfTy] using hwf
          exact encOk_relPtrSome t u (ih t u hsub hwfu)
      | seq es => simp [wfTy] at hwf
      | str s => simp [wfTy] at hwf
      | record fs => simp [wfTy] at hwf
    | seq t =>
      have hsub : sizeOf t ≤ N := by simp_arith at hN; omega
      cases v with
      | prim w' v => simp [wfTy] at hwf
      | ptr w' ov => simp [wfTy] at hwf
      | relPtr ov => simp [wfTy] at hwf
      | seq es =>
        simp only [wfTy, Bool.and_eq_true, decide_eq_true_eq] at hwf
        obtain ⟨hlen, hall⟩ := hwf
        refine encOk_seq t es hlen (svalListSize_of_wf t es ?_) ?_
        · simpa using hall
        · intro u hu
          have h := List.all_eq_true.mp (by simpa using hall) u hu
          exact ih t u hsub (by simpa using h)
      | str s => simp [wfTy] at hwf
      | record fs => simp [wfTy] at hwf
    | str =>
      cases v with
      | prim w' v => simp [wfTy] at hwf
      | ptr w' ov => simp [wfTy] at hwf
      | relPtr ov => simp [wfTy] at hwf
      | seq es => simp [wfTy] at hwf
      | str os =>
        cases os with
        | none => exact encOk_strNone
        | some s =>
          simp only [wfTy] at hwf
          refine encOk_strSome s ?_
          intro b hb
          have h := List.all_eq_true.mp hwf b hb
          simp only [Bool.and_eq_true, decide_eq_true_eq] at h
          exact h.1
      | record fs => simp [wfTy] at hwf
    | record ts =>
      cases v with
      | prim w' v => simp [wfTy] at hwf
      | ptr w' ov => simp [wfTy] at hwf
      | relPtr ov => simp [wfTy] at hwf
      | seq es => simp [wfTy] at hwf
      | str s => simp [wfTy] at hwf
      | record vs =>
        have hwf' : wfFieldsTy ts vs = true := by simpa [wfTy] using hwf
        refine encOk_record ts vs (svalListSize_eq_styListSize ts vs hwf') ?_
        intro i t' u ht hv
        have hsub : sizeOf t' ≤ N := by
          have := List.sizeOf_lt_of_mem (List.get?_mem ht)
          simp at hN
          omega
        exact ih t' u hsub (wfFieldsTy_get ts vs hwf' i t' u ht hv)

/-- C1: round trip.  For every value `v` successfully decoded from a byte
file (`bytes` being genuine `u8` bytes and the format magic 4 bytes long, as
in the Rust types), writing `v` with `write_ssbh_file` and reading the
written file back yields exactly `v` again, with the cursor just past the
record.  The bound hypotheses state that the file fits in a `u64` stream
(`st'.dataPtr < 2 ^ 64`) and that the string-scan bound covers the file. -/
theorem c1_round_trip (F F2 : Nat) (bytes magic : List Nat) (t : STy) (v : SVal)
    (p : Nat) (st' : WSt)
    (hbytes : ∀ b ∈ bytes, b < 256)
    (hmagic : magic.length = 4)
    (hdec : decodeSsbhFile F (bytesMem bytes) magic t = .ok v p)
    (henc : encodeSsbhFile magic t v = some st')
    (hbound : st'.dataPtr < 2 ^ 64)
    (hF2 : st'.dataPtr ≤ F2) :
    decodeSsbhFile F2 st'.mem magic t = .ok v (20 + STy.fixedSize t) := by
  have hMwf : MemWf (bytesMem bytes) := by
    intro q b hb
    exact hbytes b (List.get?_mem hb)
  have hdecTy : decodeTy F (bytesMem bytes) t 20 = .ok v p := by
    unfold decodeSsbhFile at hdec
    split at hdec
    · cases hdec
    · split at hdec
      · split at hdec
        · cases hdec
        · split at hdec
          · exact hdec
          · cases hdec
      · cases hdec
  obtain ⟨hwf, hp⟩ := decodeTy_wf (sizeOf t) t (le_refl _) F (bytesMem bytes) 20 v p hMwf hdecTy
  have hok : EncOk t v := encodeTy_spec (sizeOf t) t v (le_refl _) hwf
  have hszB : SVal.sizeB v = STy.fixedSize t := sizeB_eq_fixedSize (sizeOf t) t v (le_refl _) hwf
  simp only [encodeSsbhFile] at henc
  obtain ⟨hA, hB, hC, hD⟩ := hok _ st' henc
  try dsimp only at hA hB hC hD
  have hdecTy2 : decodeTy F2 st'.mem t 20 = .ok v (20 + STy.fixedSize t) :=
    hD st'.mem F2 hbound hF2 (fun q _ => rfl)
  have hmax : 20 + STy.fixedSize t ≤
      Nat.max (20 + SVal.sizeB v) (20 + STy.fixedSize t) := le_max_right _ _
  have hhdr : ∀ q, q < 20 → st'.mem q =
      (writeBytes (writeLE (writeLE (writeBytes emptyMem 0 hbssMagic) 4 8 64) 12 4 0)
        16 magic) q := by
    intro q hq
    by_contra hne
    have h := hC q hne
    simp only [EncRegion] at h
    try dsimp only at h
    omega
  have hb1 : readBytesM st'.mem 0 4 = some hbssMagic := by
    rw [readBytesM_agree 4 st'.mem _ 0 (fun i hi => hhdr _ (by omega))]
    have hag : ∀ i, i < 4 →
        (writeBytes (writeLE (writeLE (writeBytes emptyMem 0 hbssMagic) 4 8 64) 12 4 0)
          16 magic) (0 + i) = (writeBytes emptyMem 0 hbssMagic) (0 + i) := by
      intro i hi
      rw [writeBytes_outside _ _ _ _ (by omega), writeLE_outside 4 _ _ _ _ (by omega),
        writeLE_outside 8 _ _ _ _ (by omega)]
    rw [readBytesM_agree 4 _ _ 0 hag]
    simpa using readBytesM_writeBytes hbssMagic emptyMem 0
  have hb2 : readBytesM st'.mem 16 4 = some magic := by
    rw [readBytesM_agree 4 st'.mem _ 16 (fun i hi => hhdr _ (by omega))]
    have h := readBytesM_writeBytes magic
      (writeLE (writeLE (writeBytes emptyMem 0 hbssMagic) 4 8 64) 12 4 0) 16
    rw [hmagic] at h
    exact h
  simp only [decodeSsbhFile, hb1, hb2]
  exact hdecTy2

/-- Witness for `c1_round_trip`: a concrete one-field (`u32`) file with format
magic `[1,2,3,4]` and payload `9`; the round trip reproduces the decoded
value. -/
theorem c1_round_trip_witness :
    decodeSsbhFile 24
      (writeLE (writeBytes (writeLE (writeLE (writeBytes emptyMem 0 hbssMagic) 4 8 64) 12 4 0)
        16 [1, 2, 3, 4]) 20 4 9)
      [1, 2, 3, 4] (.prim .w32) = .ok (.prim .w32 9) (20 + STy.fixedSize (.prim .w32)) := by
  have hd : decodeTy 0
      (bytesMem [72, 66, 83, 83, 64, 0, 0, 0, 0, 0, 0, 0, 0, 0, 0, 0, 1, 2, 3, 4, 9, 0, 0, 0])
      (.prim .w32) 20 = .ok (.prim .w32 9) 24 := by
    simp only [decodeTy]
    rfl
  have h0 : readBytesM
      (bytesMem [72, 66, 83, 83, 64, 0, 0, 0, 0, 0, 0, 0, 0, 0, 0, 0, 1, 2, 3, 4, 9, 0, 0, 0])
      0 4 = some hbssMagic := by rfl
  have h16 : readBytesM
      (bytesMem [72, 66, 83, 83, 64, 0, 0, 0, 0, 0, 0, 0, 0, 0, 0, 0, 1, 2, 3, 4, 9, 0, 0, 0])
      16 4 = some [1, 2, 3, 4] := by rfl
  have hdec : decodeSsbhFile 0
      (bytesMem [72, 66, 83, 83, 64, 0, 0, 0, 0, 0, 0, 0, 0, 0, 0, 0, 1, 2, 3, 4, 9, 0, 0, 0])
      [1, 2, 3, 4] (.prim .w32) = .ok (.prim .w32 9) 24 := by
    simp [decodeSsbhFile, h0, h16, hd]
  exact c1_round_trip 0 24
    [72, 66, 83, 83, 64, 0, 0, 0, 0, 0, 0, 0, 0, 0, 0, 0, 1, 2, 3, 4, 9, 0, 0, 0]
    [1, 2, 3, 4] (.prim .w32) (.prim .w32 9) 24
    ⟨writeLE (writeBytes (writeLE (writeLE (writeBytes emptyMem 0 hbssMagic) 4 8 64) 12 4 0)
      16 [1, 2, 3, 4]) 20 4 9, 24, 24⟩
    (by decide) rfl hdec
    (by simp [encodeSsbhFile, encodeTy, Width.bytes, SVal.sizeB, Nat.max_self])
    (by decide) (by decide)
